import Mathlib

/-!
# A shallow embedding of the Atlas reactive-state core

This file models the reactive core of the Atlas state-management library
(`src/src/Main.ts`, second — canonical — implementation, together with the
earlier variant kept in the repository): raw source objects, atom states,
the proxy get/set traps, the scan-context stack, the observer/notification
protocol with exceptions, linking/focusing, deferred `whenAtom` callbacks
and `distill`.

Modelling conventions:
* Property keys are strings; the internal symbols (`atomSymbol`,
  `awaitSymbol`, `unatomSymbol`) are modelled as out-of-band flags on the
  object / value representation rather than as string keys.
* Primitives are modelled by integers (`Val.prim`).  `Val.ref o` is a
  reference to the raw object at heap index `o`; `Val.wref a` is a
  reference to the proxy wrapper of the atom state at index `a`.  In
  JavaScript a wrapper is a distinct object identity from its source;
  keeping the two reference kinds separate models exactly that.
* Observer closures are first-order: `Obs.update o` is the debounced
  re-run closure created by `observe(callback)` (the `setTimeout` based
  `update`), `Obs.primary l` / `Obs.secondary l` are the two closures a
  `link` call creates, and `Obs.external i` stands for any other callback.
* All recursion is fuel-based and structural, so every run on concrete
  input evaluates by `decide` / `rfl`.  Exhausting fuel sets the `stuck`
  flag, so `stuck = false` in a result witnesses genuine termination.
* Ghost instrumentation (`readLog`, `fired`, `callLog`) records which
  frame was topmost at each tracked read, every observer invocation in
  order, and every `whenAtom` callback invocation; it never influences
  the modelled computation.
* Host-integration (React hook) overloads of `observe` / `unobserve` and
  the method-call interception / `manual` tables are outside the claims
  and are not modelled; accessor properties are modelled by the
  `writable` descriptor bit the code consults.
-/

set_option maxHeartbeats 1000000

namespace Atlas

/-- Property keys. -/
abbrev Key := String

/-- Runtime values. -/
inductive Val where
  | undef
  | prim (n : Int)
  | ref (o : Nat)
  | wref (a : Nat)
deriving DecidableEq, Repr

instance : Inhabited Val := ⟨Val.undef⟩

/-- One own property of a raw object: key, stored value, and the two
descriptor bits the library consults (`enumerable` for the for-in loop,
`writable` for the descriptor check and for `Reflect.set`). -/
structure Fld where
  key : Key
  val : Val
  enumerable : Bool := true
  writable : Bool := true
deriving DecidableEq, Repr

instance : Inhabited Fld := ⟨{ key := "", val := Val.undef }⟩

/-- A raw source object.  `awaiting` models the presence of the
await-symbol property (the `whenAtom` queue); `unatomized` the
unatom-symbol marker. -/
structure Obj where
  fields : List Fld := []
  isArray : Bool := false
  awaiting : Option (List Nat) := none
  unatomized : Bool := false
deriving DecidableEq, Repr

instance : Inhabited Obj := ⟨{}⟩

/-- Observer closures, identified by provenance. -/
inductive Obs where
  | external (i : Nat)
  | update (o : Nat)
  | primary (l : Nat)
  | secondary (l : Nat)
deriving DecidableEq, Repr

instance : Inhabited Obs := ⟨Obs.external 0⟩

/-- The data captured by a `link(key, peer)` call: the linking atom, its
key, the peer atom and the peer key. -/
structure Link where
  self : Nat
  key : Key
  peer : Nat
  peerKey : Key
deriving DecidableEq, Repr

instance : Inhabited Link := ⟨{ self := 0, key := "", peer := 0, peerKey := "" }⟩

/-- Per-source atom state: the raw target, the observer registry and the
memoized focus references. -/
structure AtomSt where
  source : Nat
  observers : List (Key × List Obs) := []
  refs : List (Key × Nat) := []
deriving DecidableEq, Repr

instance : Inhabited AtomSt := ⟨{ source := 0 }⟩

/-- Observer-callback bodies, a small language sufficient to express the
callbacks passed to `observe` / `unobserve` / `focusAtom`: property reads
and writes (through wrappers or on raw objects), nested `observe` /
`unobserve` blocks, sequencing, and a thrown exception. -/
inductive Act where
  | skip
  | seq (a b : Act)
  | readF (v : Val) (k : Key)
  | writeF (v : Val) (k : Key) (x : Val)
  | obsBlock (body : Act)
  | unobsBlock (body : Act)
  | throwE
deriving DecidableEq, Repr

instance : Inhabited Act := ⟨Act.skip⟩

/-- The record behind an `observe(callback)` call: the callback and the
debounce state of its `update` closure (`timeout !== null`). -/
structure Observation where
  body : Act
  timeoutActive : Bool := false
deriving DecidableEq, Repr

instance : Inhabited Observation := ⟨{ body := Act.skip }⟩

/-- The whole mutable world: heap of raw objects, atom states, links, the
identity-keyed memo table, the scan-context stack (head = topmost frame;
frame data is stored separately because a spliced frame object stays alive
for the closures that captured it), and the ghost logs. -/
structure W where
  heap : List Obj := []
  atoms : List AtomSt := []
  links : List Link := []
  memo : List (Nat × Nat) := []
  stack : List Nat := []
  frames : List (Nat × List (Nat × List Key)) := []
  frameCtr : Nat := 0
  observations : List Observation := []
  fired : List Obs := []
  readLog : List (Option Nat × Nat × Key) := []
  callLog : List (Nat × Nat) := []
  warnings : Nat := 0
  stuck : Bool := false
deriving DecidableEq, Repr

instance : Inhabited W := ⟨{}⟩

/-! ## List and association-list helpers -/

/-- Update the element at an index, if present. -/
def listModify : List α → Nat → (α → α) → List α
  | [], _, _ => []
  | x :: rest, 0, f => f x :: rest
  | x :: rest, i+1, f => x :: listModify rest i f

/-- First-match lookup in an association list (JS `Map.get`). -/
def alookup [DecidableEq κ] : List (κ × β) → κ → Option β
  | [], _ => none
  | (k', v) :: rest, k => if k' = k then some v else alookup rest k

/-- Update the first entry with the given key, if present. -/
def amodify [DecidableEq κ] : List (κ × β) → κ → (β → β) → List (κ × β)
  | [], _, _ => []
  | (k', v) :: rest, k, f =>
    if k' = k then (k', f v) :: rest else (k', v) :: amodify rest k f

/-- Remove the first occurrence of an element (JS `indexOf` + `splice`). -/
def removeFirst [DecidableEq α] : List α → α → List α
  | [], _ => []
  | x :: rest, y => if x = y then rest else x :: removeFirst rest y

/-! ## Raw object operations -/

def getObj (w : W) (o : Nat) : Obj := (w.heap.get? o).getD default

def getAtomSt (w : W) (a : Nat) : AtomSt := (w.atoms.get? a).getD default

/-- The raw target object of an atom. -/
def srcOf (w : W) (a : Nat) : Nat := (getAtomSt w a).source

def getFld : List Fld → Key → Option Fld
  | [], _ => none
  | f :: rest, k => if f.key = k then some f else getFld rest k

/-- `Reflect.get` on the raw target. -/
def rawGet (w : W) (o : Nat) (k : Key) : Val :=
  match getFld (getObj w o).fields k with
  | some f => f.val
  | none => Val.undef

/-- JS assignment / `Reflect.set` on a raw object: overwrite the first
field with that key when it is writable (a non-writable data property
rejects the write), append a fresh enumerable writable field when the key
is absent. -/
def setFlds : List Fld → Key → Val → List Fld
  | [], k, v => [{ key := k, val := v }]
  | f :: rest, k, v =>
    if f.key = k then (if f.writable then { f with val := v } :: rest else f :: rest)
    else f :: setFlds rest k v

def updObj (w : W) (o : Nat) (g : Obj → Obj) : W :=
  { w with heap := listModify w.heap o g }

def setRaw (w : W) (o : Nat) (k : Key) (v : Val) : W :=
  updObj w o (fun ob => { ob with fields := setFlds ob.fields k v })

/-! ## Scan frames and `subscribe` -/

/-- Add a key to a set modelled as an insertion-ordered duplicate-free
list (JS `Set.add`). -/
def addKeySet (ks : List Key) (k : Key) : List Key :=
  if k ∈ ks then ks else ks ++ [k]

/-- `context.states.get(this) ?? new Set(); ...; keys.add(key)`. -/
def addStates (sts : List (Nat × List Key)) (a : Nat) (k : Key) : List (Nat × List Key) :=
  match alookup sts a with
  | none => sts ++ [(a, [k])]
  | some _ => amodify sts a (fun ks => addKeySet ks k)

/-- Push a fresh scan frame (`Global.contexts.push`). -/
def pushFrame (w : W) : W :=
  { w with stack := w.frameCtr :: w.stack,
           frames := w.frames ++ [(w.frameCtr, [])],
           frameCtr := w.frameCtr + 1 }

/-- Remove a frame from the stack by identity (`indexOf` + `splice`); its
data object survives for whoever captured it. -/
def spliceFrame (w : W) (fid : Nat) : W :=
  { w with stack := removeFirst w.stack fid }

/-- The recorded `(atom, keys)` map of a frame. -/
def frameStates (w : W) (fid : Nat) : List (Nat × List Key) :=
  (alookup w.frames fid).getD []

/-- `Atom.subscribe`: register the key into the topmost scan frame, if
any; keyed by the atom state. -/
def subscribe (w : W) (a : Nat) (k : Key) : W :=
  match w.stack with
  | [] => w
  | fid :: _ => { w with frames := amodify w.frames fid (fun sts => addStates sts a k) }

/-- The proxy get trap: log the read (ghost, tagged with the topmost
frame), subscribe, and return the underlying value.  A `wref` whose atom
index was never allocated denotes no wrapper at all and is inert. -/
def readW (w : W) (a : Nat) (k : Key) : W × Val :=
  if a < w.atoms.length then
    let w1 := { w with readLog := w.readLog ++ [(w.stack.head?, a, k)] }
    let w2 := subscribe w1 a k
    (w2, rawGet w2 (srcOf w2 a) k)
  else (w, Val.undef)

/-! ## Observer registry and notification -/

def observersOf (w : W) (a : Nat) (k : Key) : List Obs :=
  (alookup (getAtomSt w a).observers k).getD []

/-- Add an observer to a key's set (`Set.add`, dedup by identity). -/
def addObs (m : List (Key × List Obs)) (k : Key) (ob : Obs) : List (Key × List Obs) :=
  match alookup m k with
  | none => m ++ [(k, [ob])]
  | some _ => amodify m k (fun l => if ob ∈ l then l else l ++ [ob])

def updAtom (w : W) (a : Nat) (g : AtomSt → AtomSt) : W :=
  { w with atoms := listModify w.atoms a g }

/-- `Atom.watch` for a single key. -/
def watchKey (w : W) (a : Nat) (k : Key) (ob : Obs) : W :=
  updAtom w a (fun st => { st with observers := addObs st.observers k ob })

/-- `Atom.watch` over an iterable of keys. -/
def watchKeys (a : Nat) (ob : Obs) : List Key → W → W
  | [], w => w
  | k :: ks, w => watchKeys a ob ks (watchKey w a k ob)

/-- `observe`'s finalization: `state.watch(keys, update)` for every scan
entry, in recording order. -/
def installWatches (ob : Obs) : List (Nat × List Key) → W → W
  | [], w => w
  | (a, ks) :: rest, w => installWatches ob rest (watchKeys a ob ks w)

/-- Iterate a snapshot of an observer set, skipping the exceptions
(`!exceptions.includes(observer) && observer(key)`). -/
def runObsList (step : W → Obs → W) (ex : List Obs) : List Obs → W → W
  | [], w => w
  | ob :: rest, w => runObsList step ex rest (if ob ∈ ex then w else step w ob)

/-- Invoke one observer closure.  `update o` is the debounced re-run
closure of `observe(callback)`; `primary` / `secondary` are the two link
closures, each of which copies the value across and then notifies the
other side's key with itself's counterpart as the exception. -/
def runObsStep : Nat → W → Obs → W
  | 0 => fun w _ => { w with stuck := true }
  | fuel+1 => fun w ob =>
    let w := { w with fired := w.fired ++ [ob] }
    match ob with
    | Obs.external _ => w
    | Obs.update o =>
      match w.observations.get? o with
      | none => w
      | some r =>
        if r.timeoutActive then w
        else
          let obs2 := listModify w.observations o (fun r0 => { r0 with timeoutActive := true })
          { w with observations := obs2 }
    | Obs.primary l =>
      match w.links.get? l with
      | none => w
      | some L =>
        let v := rawGet w (srcOf w L.self) L.key
        let w := setRaw w (srcOf w L.peer) L.peerKey v
        runObsList (runObsStep fuel) [Obs.secondary l] (observersOf w L.peer L.peerKey) w
    | Obs.secondary l =>
      match w.links.get? l with
      | none => w
      | some L =>
        let v := rawGet w (srcOf w L.peer) L.peerKey
        let w := setRaw w (srcOf w L.self) L.key v
        runObsList (runObsStep fuel) [Obs.primary l] (observersOf w L.self L.key) w

/-- `Atom.notify`: run every observer of the key except the exceptions. -/
def notifyAll (fuel : Nat) (w : W) (a : Nat) (k : Key) (ex : List Obs) : W :=
  runObsList (runObsStep fuel) ex (observersOf w a k) w

/-! ## Atomization -/

/-- The keys the `for (const key in source)` loop visits and does not skip
by the descriptor check: own enumerable fields that are writable. -/
def enumWritableKeys (ob : Obj) : List Key :=
  (ob.fields.filter (fun f => f.enumerable && f.writable)).map Fld.key

/-- The recursive property-atomization loop of `atom`: each article-valued
field is replaced, on the raw source itself, by its wrapper.  `atomize`
leaves every non-article value (primitives, wrappers) unchanged, so those
assignments are no-ops. -/
def atomFields (recAtom : W → Val → W × Val) (o : Nat) : List Key → W → W
  | [], w => w
  | k :: ks, w =>
    let w1 :=
      match rawGet w o k with
      | Val.ref o2 =>
        let p := recAtom w (Val.ref o2)
        setRaw p.1 o k p.2
      | _ => w
    atomFields recAtom o ks w1

/-- The body of `atom(source)` once `source` is an article (raw object
`o`): honour the unatom marker; memoize per source identity before
recursing into fields; finally run pending `whenAtom` callbacks in
registration order, passing the finished wrapper. -/
def atomCore (recAtom : W → Val → W × Val) (w : W) (o : Nat) : W × Val :=
  if (getObj w o).unatomized then (w, Val.ref o)
  else
    match alookup w.memo o with
    | some a => (w, Val.wref a)
    | none =>
      let a := w.atoms.length
      let w := { w with atoms := w.atoms ++ [{ source := o }], memo := w.memo ++ [(o, a)] }
      let w := atomFields recAtom o (enumWritableKeys (getObj w o)) w
      let w :=
        match (getObj w o).awaiting with
        | some cbs =>
          let w := updObj w o (fun ob => { ob with awaiting := none })
          { w with callLog := w.callLog ++ cbs.map (fun c => (c, a)) }
        | none => w
      (w, Val.wref a)

/-- `atom(source)`: coerce non-articles (primitives and also existing
wrappers, which carry the atom symbol and therefore fail `isArticle`) to a
fresh `{ value }` record, then run the atomization body. -/
def atomFn : Nat → W → Val → W × Val
  | 0 => fun w v => ({ w with stuck := true }, v)
  | fuel+1 => fun w v =>
    match v with
    | Val.ref o => atomCore (atomFn fuel) w o
    | x =>
      atomCore (atomFn fuel)
        { w with heap := w.heap ++ [{ fields := [{ key := "value", val := x }] }] }
        w.heap.length

/-- The `atomize` helper: articles are atomized, everything else
(primitives, wrappers, excluded host objects) passes through unchanged. -/
def atomize (fuel : Nat) (w : W) (v : Val) : W × Val :=
  match v with
  | Val.ref o => atomFn fuel w (Val.ref o)
  | x => (w, x)

/-- `whenAtom(target, callback)`: append to the await queue, creating it
if absent. -/
def whenAtomFn (w : W) (o : Nat) (cb : Nat) : W :=
  match (getObj w o).awaiting with
  | some l => updObj w o (fun ob => { ob with awaiting := some (l ++ [cb]) })
  | none => updObj w o (fun ob => { ob with awaiting := some [cb] })

/-- The proxy set trap: atomize the incoming value, store it on the raw
target, notify the key's observers with no exceptions, and report
success (the trap always returns `true`). -/
def setW (fuel : Nat) (w : W) (a : Nat) (k : Key) (v : Val) : W × Bool :=
  if a < w.atoms.length then
    let p := atomize fuel w v
    let w := setRaw p.1 (srcOf p.1 a) k p.2
    (notifyAll fuel w a k [], true)
  else (w, true)

/-! ## Observer bodies: `observe` / `unobserve` -/

/-- The finalization of a non-throwing `observe(callback)` call: splice
the frame, warn on an empty scan, create the observation record and
install a watch with its `update` closure on every recorded pair. -/
def observeFinish (body : Act) (fid : Nat) (w2 : W) : W :=
  let sts := frameStates w2 fid
  let w3 := spliceFrame w2 fid
  let w4 := if sts.isEmpty then { w3 with warnings := w3.warnings + 1 } else w3
  let oid := w4.observations.length
  let w5 := { w4 with observations := w4.observations ++ [{ body := body }] }
  installWatches (Obs.update oid) sts w5

/-- Run an observer body.  `none` as the result models a propagating
exception.  `obsBlock` is `observe(callback)` (including the missing
try/finally: a throwing callback leaves its frame on the stack) and
`unobsBlock` is `unobserve(callback)`. -/
def runAct (fuel : Nat) : Act → W → W × Option Val
  | Act.skip, w => (w, some Val.undef)
  | Act.throwE, w => (w, none)
  | Act.seq a b, w =>
    match runAct fuel a w with
    | (w1, none) => (w1, none)
    | (w1, some _) => runAct fuel b w1
  | Act.readF v k, w =>
    match v with
    | Val.wref a => let p := readW w a k; (p.1, some p.2)
    | Val.ref o => (w, some (rawGet w o k))
    | _ => (w, some Val.undef)
  | Act.writeF v k x, w =>
    match v with
    | Val.wref a => ((setW fuel w a k x).1, some x)
    | Val.ref o => (setRaw w o k x, some x)
    | _ => (w, some x)
  | Act.obsBlock body, w =>
    let fid := w.frameCtr
    let w1 := pushFrame w
    match runAct fuel body w1 with
    | (w2, none) => (w2, none)
    | (w2, some _) => (observeFinish body fid w2, some Val.undef)
  | Act.unobsBlock body, w =>
    let fid := w.frameCtr
    let w1 := pushFrame w
    match runAct fuel body w1 with
    | (w2, none) => (w2, none)
    | (w2, some r) => (spliceFrame w2 fid, some r)

/-- `observe(callback)`. -/
def observeFn (fuel : Nat) (body : Act) (w : W) : W × Option Val :=
  runAct fuel (Act.obsBlock body) w

/-- `unobserve(callback)`. -/
def unobserveFn (fuel : Nat) (body : Act) (w : W) : W × Option Val :=
  runAct fuel (Act.unobsBlock body) w

/-! ## Focus -/

/-- The inner loop of `focusAtom`'s entry scan: the first recorded key of
this atom whose stored value is the probe's result. -/
def findEntryKeys (w : W) (value : Val) (a : Nat) : List Key → Option (Nat × Key)
  | [] => none
  | k :: ks =>
    if rawGet w (srcOf w a) k = value then some (a, k) else findEntryKeys w value a ks

/-- `focusAtom`'s entry scan over the recorded `(atom, keys)` map, in
recording order. -/
def findEntry (w : W) (value : Val) : List (Nat × List Key) → Option (Nat × Key)
  | [] => none
  | (a, ks) :: rest =>
    match findEntryKeys w value a ks with
    | some e => some e
    | none => findEntry w value rest

/-- `Atom.focus(key)`: memoized per atom+key; otherwise create a fresh
`{ value }` atom, link its `value` field to the parent key, watch both
sides, remember it. -/
def focusMeth (fuel : Nat) (w : W) (a : Nat) (k : Key) : W × Val :=
  match alookup (getAtomSt w a).refs k with
  | some r => (w, Val.wref r)
  | none =>
    let v := rawGet w (srcOf w a) k
    let o2 := w.heap.length
    let w := { w with heap := w.heap ++ [{ fields := [{ key := "value", val := v }] }] }
    let p := atomFn fuel w (Val.ref o2)
    match p.2 with
    | Val.wref r =>
      let w := p.1
      let l := w.links.length
      let w := { w with links := w.links ++ [{ self := r, key := "value", peer := a, peerKey := k }] }
      let w := watchKey w r "value" (Obs.primary l)
      let w := watchKey w a k (Obs.secondary l)
      let w := updAtom w a (fun st => { st with refs := st.refs ++ [(k, r)] })
      (w, Val.wref r)
    | _ => (p.1, p.2)

/-- `focusAtom(observer)`: scan the probe inside a fresh frame, splice the
frame, then focus the first recorded `(atom, key)` pair whose stored value
equals the probe's result.  `none` models the thrown error (either a
throwing probe — which leaks the frame — or `No atom entry found`). -/
def focusAtomFn (fuel : Nat) (probe : Act) (w : W) : W × Option Val :=
  let fid := w.frameCtr
  let w1 := pushFrame w
  match runAct fuel probe w1 with
  | (w2, none) => (w2, none)
  | (w2, some value) =>
    let sts := frameStates w2 fid
    let w3 := spliceFrame w2 fid
    match findEntry w3 value sts with
    | none => (w3, none)
    | some (a, k) => let p := focusMeth fuel w3 a k; (p.1, some p.2)

/-! ## Distill -/

/-- Values of the distilled (atom-free) copy: primitives, references into
the copy heap, and aliases of raw source objects that were never
atomized. -/
inductive CVal where
  | undef
  | prim (n : Int)
  | cref (c : Nat)
  | raw (o : Nat)
deriving DecidableEq, Repr

instance : Inhabited CVal := ⟨CVal.undef⟩

/-- An object of the distilled copy. -/
structure CObj where
  fields : List (Key × CVal) := []
  isArray : Bool := false
deriving DecidableEq, Repr

instance : Inhabited CObj := ⟨{}⟩

/-- `Reflect.ownKeys` on a raw target (all own keys, including
non-enumerable ones such as an array's `length`). -/
def ownKeys (ob : Obj) : List Key := ob.fields.map Fld.key

def pushCField (ch : List CObj) (c : Nat) (k : Key) (v : CVal) : List CObj :=
  listModify ch c (fun co => { co with fields := co.fields ++ [(k, v)] })

/-- The per-key loop of `Atom.distill`: wrapper-valued fields recurse
through the shared seen map (keyed by atom state), everything else is
copied as-is. -/
def distillKeys (w : W)
    (recD : Nat → List (Nat × Nat) → List CObj → Option (List (Nat × Nat) × List CObj × Nat))
    (o : Nat) (c : Nat) :
    List Key → List (Nat × Nat) → List CObj → Option (List (Nat × Nat) × List CObj)
  | [], seen, ch => some (seen, ch)
  | k :: ks, seen, ch =>
    match rawGet w o k with
    | Val.wref a2 =>
      (match alookup seen a2 with
       | some c2 => distillKeys w recD o c ks seen (pushCField ch c k (CVal.cref c2))
       | none =>
         match recD a2 seen ch with
         | none => none
         | some (seen2, ch2, c2) => distillKeys w recD o c ks seen2 (pushCField ch2 c k (CVal.cref c2)))
    | Val.prim n => distillKeys w recD o c ks seen (pushCField ch c k (CVal.prim n))
    | Val.ref o2 => distillKeys w recD o c ks seen (pushCField ch c k (CVal.raw o2))
    | Val.undef => distillKeys w recD o c ks seen (pushCField ch c k CVal.undef)

/-- `Atom.distill(seen)`: a keyless target is `structuredClone`d (which
preserves array-ness); otherwise the copy is built as a plain object
literal (`const distilled: Article = {}`) whatever the target was, with
the seen entry inserted before recursing into children. -/
def distillSt : Nat → W → Nat → List (Nat × Nat) → List CObj →
    Option (List (Nat × Nat) × List CObj × Nat)
  | 0 => fun _ _ _ _ => none
  | fuel+1 => fun w a seen ch =>
    let o := srcOf w a
    let keys := ownKeys (getObj w o)
    if keys.isEmpty then
      some (seen ++ [(a, ch.length)], ch ++ [{ isArray := (getObj w o).isArray }], ch.length)
    else
      let c := ch.length
      let seen1 := seen ++ [(a, c)]
      let ch1 := ch ++ [({} : CObj)]
      match distillKeys w (fun a2 s2 c2 => distillSt fuel w a2 s2 c2) o c keys seen1 ch1 with
      | none => none
      | some (seen2, ch2) => some (seen2, ch2, c)

/-- `distillAtom(value)`: distill atoms, pass everything else through. -/
def distillAtomFn (fuel : Nat) (w : W) (v : Val) : Option (List CObj × CVal) :=
  match v with
  | Val.wref a =>
    match distillSt fuel w a [] [] with
    | none => none
    | some (_, ch, c) => some (ch, CVal.cref c)
  | Val.prim n => some ([], CVal.prim n)
  | Val.ref o => some ([], CVal.raw o)
  | Val.undef => some ([], CVal.undef)

/-! ## Well-formedness predicates and ghost views used by the theorems -/

/-- Frame ids recorded in the frame store are below the frame counter
(true of every world built by the API, which allocates ids from the
counter). -/
def WfF (w : W) : Prop := ∀ p ∈ w.frames, p.1 < w.frameCtr

/-- Every frame id on the context stack has a backing data entry (true of
every world built by the API: `pushFrame` creates both together). -/
def WfS (w : W) : Prop := ∀ fid ∈ w.stack, (alookup w.frames fid).isSome

/-- Every registered `update` observer points at an existing observation
record (true of every world built by the API). -/
def WfU (w : W) : Prop :=
  ∀ a k o, Obs.update o ∈ observersOf w a k → o < w.observations.length

/-- Membership of an `(atom, key)` pair in a recorded scan map. -/
def stMem (sts : List (Nat × List Key)) (a : Nat) (k : Key) : Prop :=
  ∃ p ∈ sts, p.1 = a ∧ k ∈ p.2

/-- Membership of an `(atom, key)` pair in a frame's recorded set. -/
def frameMem (w : W) (fid : Nat) (a : Nat) (k : Key) : Prop :=
  stMem (frameStates w fid) a k

/-! ## Concrete scenario worlds -/

/-- Fields built from key/primitive pairs. -/
def primMap (fs : List (Key × Int)) : List Fld :=
  fs.map (fun p => { key := p.1, val := Val.prim p.2 })

/-- A world holding one raw object whose fields are all primitive. -/
def primObjW (fs : List (Key × Int)) : W :=
  { heap := [{ fields := primMap fs }] }

/-- `atom(5)`. -/
def primRun : W × Val := atomFn 3 {} (Val.prim 5)

/-- `atom(5).value = 9` through the set trap. -/
def primRun9 : W × Bool := setW 3 primRun.1 0 "value" (Val.prim 9)

/-- `v = {a: 1}`. -/
def idW : W := primObjW [("a", 1)]

/-- `atom(v)` for `v = {a: 1}`. -/
def idRun : W × Val := atomFn 5 idW (Val.ref 0)

/-- `{a: 1, b: 2}` and its atomization. -/
def abW : W := primObjW [("a", 1), ("b", 2)]

def abAtom : W × Val := atomFn 5 abW (Val.ref 0)

/-- `observe(() => { wrapper.a })`. -/
def abObserve : W × Option Val := observeFn 9 (Act.readF (Val.wref 0) "a") abAtom.1

/-- `wrapper.a = 5` after the observation. -/
def abWriteA : W × Bool := setW 9 abObserve.1 0 "a" (Val.prim 5)

/-- `wrapper.b = 7` after that. -/
def abWriteB : W × Bool := setW 9 abWriteA.1 0 "b" (Val.prim 7)

/-- `state = atom({count: 0})`. -/
def cntW : W := primObjW [("count", 0)]

def cntAtom : W × Val := atomFn 5 cntW (Val.ref 0)

/-- `ref = focusAtom(() => state.count)`; the reference atom is atom 1. -/
def cntFocus : W × Option Val := focusAtomFn 9 (Act.readF (Val.wref 0) "count") cntAtom.1

/-- A third-party observer on the parent side: `observe(() => { state.count })`. -/
def cntObs1 : W × Option Val := observeFn 9 (Act.readF (Val.wref 0) "count") cntFocus.1

/-- A third-party observer on the reference side: `observe(() => { ref.value })`. -/
def cntObs2 : W × Option Val := observeFn 9 (Act.readF (Val.wref 1) "value") cntObs1.1

/-- External write `state.count = 5`. -/
def cntWrite5 : W × Bool := setW 9 cntObs2.1 0 "count" (Val.prim 5)

/-- External write `ref.value = 9`. -/
def cntWrite9 : W × Bool := setW 9 cntWrite5.1 1 "value" (Val.prim 9)

/-- The README's distill example shape: `{id: 14, friends: [{id: 19}, {id: 8}]}`
with `friends` a genuine array (own keys 0, 1 and a non-enumerable
writable `length`). -/
def distW : W := { heap := [
  { fields := [{ key := "id", val := Val.prim 14 }, { key := "friends", val := Val.ref 1 }] },
  { fields := [{ key := "0", val := Val.ref 2 }, { key := "1", val := Val.ref 3 },
               { key := "length", val := Val.prim 2, enumerable := false }], isArray := true },
  { fields := [{ key := "id", val := Val.prim 19 }] },
  { fields := [{ key := "id", val := Val.prim 8 }] }] }

def distAtom : W × Val := atomFn 9 distW (Val.ref 0)

/-- A self-referential source: `x.self = x`. -/
def cycW : W := { heap := [{ fields := [{ key := "self", val := Val.ref 0 }] }] }

def cycAtom : W × Val := atomFn 9 cycW (Val.ref 0)

/-- Two independent atoms `{x: 1}` and `{y: 2}`. -/
def xyW : W := { heap := [{ fields := [{ key := "x", val := Val.prim 1 }] },
                          { fields := [{ key := "y", val := Val.prim 2 }] }] }

def xyAtoms : W := (atomFn 5 (atomFn 5 xyW (Val.ref 0)).1 (Val.ref 1)).1

/-- A probe reading two `(atom, field)` pairs and returning the second
value: `() => { a.x; return b.y; }`. -/
def xyProbe : Act := Act.seq (Act.readF (Val.wref 0) "x") (Act.readF (Val.wref 1) "y")

def xyRun : W × Option Val := focusAtomFn 9 xyProbe xyAtoms

/-- A probe that reads exactly one pair but returns a non-matching value:
`() => { a.x; return undefined; }`. -/
def xyProbeMismatch : Act := Act.seq (Act.readF (Val.wref 0) "x") Act.skip

/-- Base world for the frame-leak scenario: an atomized `{a: 1, b: 2}`. -/
def leakBase : W := (atomFn 5 (primObjW [("a", 1), ("b", 2)]) (Val.ref 0)).1

/-- `observe(() => { throw ... })`. -/
def leakObs : W × Option Val := observeFn 5 Act.throwE leakBase

/-- The plain child object of the in-place-mutation scenario. -/
def childObj (gs : List (Key × Int)) : Obj := { fields := primMap gs }

/-- A world with a parent object whose fields are primitives or
references to the single plain child object at heap index 1. -/
def nestW (fs : List Fld) (gs : List (Key × Int)) : W :=
  { heap := [{ fields := fs }, childObj gs] }

/-- The field transform the atomization loop performs on the parent:
enumerable writable article-valued fields are replaced by the child's
wrapper. -/
def nestTransform (fl : Fld) : Fld :=
  if fl.enumerable && fl.writable && (fl.val == Val.ref 1) then { fl with val := Val.wref 1 }
  else fl

/-- The two shapes the world takes while the parent's atomization loop
runs: before (`b = false`) and after (`b = true`) the child has been
atomized. -/
def c10World (fs' : List Fld) (gs : List (Key × Int)) (b : Bool) : W :=
  if b then
    { heap := [{ fields := fs' }, childObj gs],
      atoms := [{ source := 0 }, { source := 1 }], memo := [(0, 0), (1, 1)] }
  else
    { heap := [{ fields := fs' }, childObj gs], atoms := [{ source := 0 }], memo := [(0, 0)] }

/-- Values that can appear on the parent during the loop. -/
def C10Val (v : Val) : Prop :=
  (∃ n, v = Val.prim n) ∨ v = Val.ref 1 ∨ v = Val.wref 1

/-- One step of the loop's effect on the parent's fields: a field
currently holding the child reference is overwritten with the child's
wrapper. -/
def c10Step (fs' : List Fld) (k : Key) : List Fld :=
  match getFld fs' k with
  | some fl => if fl.val = Val.ref 1 then setFlds fs' k (Val.wref 1) else fs'
  | none => fs'

/-- The loop's cumulative effect on the parent's fields. -/
def c10Fold : List Key → List Fld → List Fld
  | [], fs' => fs'
  | k :: ks, fs' => c10Fold ks (c10Step fs' k)

/-- Whether the loop atomizes the child at some key. -/
def c10Hit : List Key → List Fld → Bool
  | [], _ => false
  | k :: ks, fs' =>
    (match getFld fs' k with
     | some fl => fl.val == Val.ref 1
     | none => false) || c10Hit ks (c10Step fs' k)

/-- `whenAtom` registrations `cbs`, in order, against the object of
`primObjW fs` before it is atomized. -/
def whenW (fs : List (Key × Int)) (cbs : List Nat) : W :=
  cbs.foldl (fun w c => whenAtomFn w 0 c) (primObjW fs)

/-- A concrete parent for the in-place-mutation scenario: one field holding
the plain child object, one primitive field. -/
def c10fs : List Fld :=
  [{ key := "p", val := Val.ref 1 }, { key := "q", val := Val.prim 7 }]

/-- The child's fields in that scenario. -/
def c10gs : List (Key × Int) := [("g", 3)]

/-! ## Invariant bundles -/

/-- Equality of the scan-machinery components of two worlds. -/
def ScanEq (w w' : W) : Prop :=
  w'.stack = w.stack ∧ w'.frames = w.frames ∧ w'.frameCtr = w.frameCtr ∧ w'.readLog = w.readLog

/-- What a notification cascade can never change. -/
def NotifyInv (w w' : W) : Prop :=
  ScanEq w w' ∧ w'.atoms = w.atoms ∧ w'.observations.length = w.observations.length

/-- What atomization can never change: the scan machinery, the
observation list, and every existing observer registry (new atoms start
with empty registries, so `observersOf` is preserved everywhere). -/
def AtomInv (w w' : W) : Prop :=
  ScanEq w w' ∧ w'.observations = w.observations
    ∧ (∀ a k, observersOf w' a k = observersOf w a k)
    ∧ w.atoms.length ≤ w'.atoms.length

/-- What a set-trap write can never change. -/
def SetInv (w w' : W) : Prop :=
  ScanEq w w' ∧ w'.observations.length = w.observations.length
    ∧ (∀ a k, observersOf w' a k = observersOf w a k)
    ∧ w.atoms.length ≤ w'.atoms.length

/-- What watch installation can never change. -/
def InstInv (w w' : W) : Prop :=
  ScanEq w w' ∧ w'.observations = w.observations ∧ w'.atoms.length = w.atoms.length

/-! ## Claim theorems: concrete scenarios -/

/-- C6: for the non-composite value 5, `atom(5)` returns a wrapper shaped
`{ value: 5 }`, reading `.value` through the get trap yields 5, assigning
`.value = 9` is stored by the set trap (which reports success), and a
subsequent read of `.value` yields 9. -/
theorem C6_primitive_coercion :
    primRun.2 = Val.wref 0
    ∧ (getObj primRun.1 0).fields.map (fun f => (f.key, f.val)) = [("value", Val.prim 5)]
    ∧ (readW primRun.1 0 "value").2 = Val.prim 5
    ∧ primRun9.2 = true
    ∧ (readW primRun9.1 0 "value").2 = Val.prim 9 := by decide

/-- C3: with `state = atom({count: 0})` and `ref = focusAtom(() =>
state.count)` plus one third-party observer on each side (`Obs.update 0`
on `state.count`, `Obs.update 1` on `ref.value`), the write
`state.count = 5` makes `ref.value = 5`, the write `ref.value = 9` makes
`state.count = 9`, both notification cascades terminate without
exhausting fuel (`stuck = false`), and each write invokes each side's
third-party observer exactly once. -/
theorem C3_focus_link_roundtrip :
    cntFocus.2 = some (Val.wref 1)
    ∧ (readW cntWrite5.1 1 "value").2 = Val.prim 5
    ∧ (readW cntWrite9.1 0 "count").2 = Val.prim 9
    ∧ cntWrite5.1.stuck = false
    ∧ cntWrite9.1.stuck = false
    ∧ (cntWrite5.1.fired.drop cntObs2.1.fired.length).count (Obs.update 0) = 1
    ∧ (cntWrite5.1.fired.drop cntObs2.1.fired.length).count (Obs.update 1) = 1
    ∧ (cntWrite9.1.fired.drop cntWrite5.1.fired.length).count (Obs.update 0) = 1
    ∧ (cntWrite9.1.fired.drop cntWrite5.1.fired.length).count (Obs.update 1) = 1 := by decide

/-- C5: evaluation at the failing input.  For the README example shape
`x = {id: 14, friends: [{id: 19}, {id: 8}]}` the source `friends` target
is an array, but `Atom.distill` copies it as a plain (non-array) object
carrying `0`, `1` and `length` as ordinary fields, because the copy is
always built as an object literal; the claimed deep structural equality
therefore fails on arrays.  The cycle handling the claim also describes
is real: for self-referential `x.self = x`, distill terminates and the
copy's `self` field points back at the copy itself. -/
theorem C5_distill_at_failing_input :
    (getObj distAtom.1 1).isArray = true
    ∧ rawGet distAtom.1 0 "friends" = Val.wref 1
    ∧ distillAtomFn 9 distAtom.1 (Val.wref 0) =
        some ([{ fields := [("id", CVal.prim 14), ("friends", CVal.cref 1)] },
               { fields := [("0", CVal.cref 2), ("1", CVal.cref 3), ("length", CVal.prim 2)] },
               { fields := [("id", CVal.prim 19)] },
               { fields := [("id", CVal.prim 8)] }], CVal.cref 0)
    ∧ cycAtom.2 = Val.wref 0
    ∧ rawGet cycAtom.1 0 "self" = Val.wref 0
    ∧ distillAtomFn 9 cycAtom.1 (Val.wref 0) =
        some ([{ fields := [("self", CVal.cref 0)] }], CVal.cref 0)
    ∧ cycAtom.1.stuck = false := by decide

/-- C7 counterexample: a probe that reads two `(atom, field)` pairs —
`(atom {x:1}, x)` and `(atom {y:2}, y)`, as recorded on the scan frame —
does not make `focusAtom` raise; it succeeds and returns a focused atom,
refuting "raises an error whenever the scan contains more than one
(atom, field) pair". -/
theorem C7_focus_multi_pair_no_error :
    frameStates xyRun.1 0 = [(0, ["x"]), (1, ["y"])]
    ∧ xyRun.2 = some (Val.wref 2) := by decide

/-- C7 amended: `focusAtom(probe)` raises exactly when no recorded
`(atom, field)` pair has a stored value equal to the probe's result — in
particular when zero pairs were recorded, but also when one pair was
recorded and the probe returned something else; when several pairs were
read it does not raise and focuses the first recorded pair whose stored
value matches the probe's result (here `(atom {y:2}, y)`). -/
theorem C7_focus_validation_amended :
    (focusAtomFn 9 Act.skip xyAtoms).2 = none
    ∧ (focusAtomFn 9 xyProbeMismatch xyAtoms).2 = none
    ∧ frameStates (focusAtomFn 9 xyProbeMismatch xyAtoms).1 0 = [(0, ["x"])]
    ∧ xyRun.2 = some (Val.wref 2)
    ∧ xyRun.1.links = [{ self := 2, key := "value", peer := 1, peerKey := "y" }] := by decide

/-- C9: evaluation at the failing input.  `observe(() => { throw })`
leaves its scan frame on the context stack (the code has no try/finally),
and a later unrelated read is then attributed to that stale frame;
`unobserve` and `focusAtom` leak in the same way.  On the normal path the
frame is removed. -/
theorem C9_frame_leak_on_throw :
    leakObs.2 = none
    ∧ leakObs.1.stack = [0]
    ∧ frameStates (readW leakObs.1 0 "b").1 0 = [(0, ["b"])]
    ∧ (unobserveFn 5 Act.throwE leakBase).1.stack = [0]
    ∧ (focusAtomFn 5 Act.throwE leakBase).1.stack = [0]
    ∧ (observeFn 5 (Act.readF (Val.wref 0) "a") leakBase).1.stack = [] := by decide

/-- C2 counterexample: for `v = {a: 1}`, `atom(v)` returns the wrapper of
atom 0, but `atom(atom(v))` coerces the wrapper (which carries the atom
symbol and so fails `isArticle`) into a fresh `{value: wrapper}` record
and returns a different wrapper, refuting `atom(atom(v)) === atom(v)`. -/
theorem C2_atom_of_atom_counterexample :
    idRun.2 = Val.wref 0
    ∧ (atomFn 5 idRun.1 idRun.2).2 = Val.wref 1
    ∧ (atomFn 5 idRun.1 idRun.2).2 ≠ idRun.2 := by decide

/-! ## List, association-list and set lemmas -/

theorem length_listModify (l : List α) (i : Nat) (f : α → α) :
    (listModify l i f).length = l.length := by
  induction l generalizing i with
  | nil => rfl
  | cons x rest ih => cases i <;> simp [listModify, ih]

theorem get?_listModify_self (l : List α) (i : Nat) (f : α → α) :
    (listModify l i f).get? i = (l.get? i).map f := by
  induction l generalizing i with
  | nil => cases i <;> rfl
  | cons x rest ih =>
    cases i with
    | zero => rfl
    | succ n => simpa [listModify] using ih n

theorem get?_listModify_ne (l : List α) (i j : Nat) (f : α → α) (h : j ≠ i) :
    (listModify l i f).get? j = l.get? j := by
  induction l generalizing i j with
  | nil => rfl
  | cons x rest ih =>
    cases i with
    | zero => cases j with
      | zero => exact absurd rfl h
      | succ j => simp [listModify]
    | succ i => cases j with
      | zero => simp [listModify]
      | succ j => simpa [listModify] using ih i j (by omega)

theorem alookup_append [DecidableEq κ] (l₁ l₂ : List (κ × β)) (k : κ) :
    alookup (l₁ ++ l₂) k =
      match alookup l₁ k with
      | some v => some v
      | none => alookup l₂ k := by
  induction l₁ with
  | nil => simp [alookup]
  | cons p rest ih =>
    obtain ⟨k1, v1⟩ := p
    by_cases h : k1 = k <;> simp [alookup, h, ih]

theorem alookup_amodify_self [DecidableEq κ] (l : List (κ × β)) (k : κ) (f : β → β) :
    alookup (amodify l k f) k = (alookup l k).map f := by
  induction l with
  | nil => rfl
  | cons p rest ih =>
    obtain ⟨k1, v1⟩ := p
    by_cases h : k1 = k <;> simp [alookup, amodify, h, ih]

theorem alookup_amodify_ne [DecidableEq κ] (l : List (κ × β)) (k k' : κ) (f : β → β)
    (h : k' ≠ k) : alookup (amodify l k f) k' = alookup l k' := by
  induction l with
  | nil => rfl
  | cons p rest ih =>
    obtain ⟨k1, v1⟩ := p
    by_cases h1 : k1 = k
    · subst h1
      have h2 : ¬ k1 = k' := fun hx => h (hx ▸ rfl)
      simp [alookup, amodify, h2]
    · by_cases h2 : k1 = k'
      · subst h2
        simp [alookup, amodify, h1]
      · simp [alookup, amodify, h1, h2, ih]

theorem alookup_isSome_amodify [DecidableEq κ] (l : List (κ × β)) (k k' : κ) (f : β → β) :
    (alookup (amodify l k f) k').isSome = (alookup l k').isSome := by
  by_cases h : k' = k
  · subst h; rw [alookup_amodify_self]; cases alookup l k' <;> rfl
  · rw [alookup_amodify_ne _ _ _ _ h]

theorem mem_removeFirst [DecidableEq α] {x y : α} :
    ∀ {l : List α}, x ∈ removeFirst l y → x ∈ l := by
  intro l
  induction l with
  | nil => simp [removeFirst]
  | cons a rest ih =>
    by_cases h : a = y
    · simp [removeFirst, h]; exact fun hx => Or.inr hx
    · simp [removeFirst, h]
      rintro (rfl | hx)
      · exact Or.inl rfl
      · exact Or.inr (ih hx)

theorem removeFirst_append_not_mem [DecidableEq α] {y : α} :
    ∀ (l₁ l₂ : List α), y ∉ l₁ → removeFirst (l₁ ++ y :: l₂) y = l₁ ++ l₂ := by
  intro l₁
  induction l₁ with
  | nil => intro l₂ _; simp [removeFirst]
  | cons a rest ih =>
    intro l₂ h
    have ha : ¬ a = y := fun hx => h (hx ▸ List.mem_cons_self a rest)
    have hr : y ∉ rest := fun hx => h (List.mem_cons_of_mem a hx)
    simp [removeFirst, ha, ih l₂ hr]

theorem mem_addKeySet (ks : List Key) (k k' : Key) :
    k' ∈ addKeySet ks k ↔ k' ∈ ks ∨ k' = k := by
  by_cases h : k ∈ ks
  · simp only [addKeySet, if_pos h]
    constructor
    · exact Or.inl
    · rintro (hx | rfl)
      · exact hx
      · exact h
  · simp [addKeySet, if_neg h]

theorem addStates_cons_ne (b : Nat) (ks₀ : List Key) (rest : List (Nat × List Key))
    (a : Nat) (k : Key) (h : b ≠ a) :
    addStates ((b, ks₀) :: rest) a k = (b, ks₀) :: addStates rest a k := by
  cases h2 : alookup rest a with
  | none => simp [addStates, alookup, h, h2]
  | some ks => simp [addStates, alookup, amodify, h, h2]

theorem stMem_addStates (sts : List (Nat × List Key)) (a : Nat) (k : Key) (a' : Nat) (k' : Key) :
    stMem (addStates sts a k) a' k' ↔ stMem sts a' k' ∨ (a' = a ∧ k' = k) := by
  induction sts with
  | nil =>
    simp only [addStates, alookup, stMem, List.nil_append]
    simp
    aesop
  | cons p rest ih =>
    obtain ⟨b, ks₀⟩ := p
    simp only [stMem] at ih
    by_cases hb : b = a
    · subst hb
      have hstep : addStates ((b, ks₀) :: rest) b k = (b, addKeySet ks₀ k) :: rest := by
        simp [addStates, alookup, amodify]
      rw [hstep]
      simp only [stMem, List.mem_cons, mem_addKeySet]
      constructor
      · rintro ⟨q, hq, h3, h4⟩
        rcases hq with rfl | hq
        · simp only at h3 h4
          rw [mem_addKeySet] at h4
          rcases h4 with h5 | h5
          · exact Or.inl ⟨(b, ks₀), Or.inl rfl, h3, h5⟩
          · exact Or.inr ⟨h3.symm, h5⟩
        · exact Or.inl ⟨q, Or.inr hq, h3, h4⟩
      · rintro (⟨q, hq, h3, h4⟩ | ⟨h5, h6⟩)
        · rcases hq with rfl | hq
          · exact ⟨(b, addKeySet ks₀ k), Or.inl rfl, h3, by simp [mem_addKeySet, h4]⟩
          · exact ⟨q, Or.inr hq, h3, h4⟩
        · exact ⟨(b, addKeySet ks₀ k), Or.inl rfl, h5.symm, by simp [mem_addKeySet, h6]⟩
    · rw [addStates_cons_ne _ _ _ _ _ hb]
      simp only [stMem, List.mem_cons]
      constructor
      · rintro ⟨q, hq, h3, h4⟩
        rcases hq with rfl | hq
        · exact Or.inl ⟨(b, ks₀), Or.inl rfl, h3, h4⟩
        · rcases ih.1 ⟨q, hq, h3, h4⟩ with ⟨r, hr, h6, h7⟩ | h5
          · exact Or.inl ⟨r, Or.inr hr, h6, h7⟩
          · exact Or.inr h5
      · rintro (⟨q, hq, h3, h4⟩ | h5)
        · rcases hq with rfl | hq
          · exact ⟨(b, ks₀), Or.inl rfl, h3, h4⟩
          · obtain ⟨r, hr, h6, h7⟩ := ih.2 (Or.inl ⟨q, hq, h3, h4⟩)
            exact ⟨r, Or.inr hr, h6, h7⟩
        · obtain ⟨r, hr, h6, h7⟩ := ih.2 (Or.inr h5)
          exact ⟨r, Or.inr hr, h6, h7⟩

/-! ## Preservation of the invariant bundles -/

theorem scanEq_refl (w : W) : ScanEq w w := ⟨rfl, rfl, rfl, rfl⟩

theorem scanEq_trans {w1 w2 w3 : W} (h1 : ScanEq w1 w2) (h2 : ScanEq w2 w3) : ScanEq w1 w3 :=
  ⟨h2.1.trans h1.1, h2.2.1.trans h1.2.1, h2.2.2.1.trans h1.2.2.1, h2.2.2.2.trans h1.2.2.2⟩

theorem notifyInv_refl (w : W) : NotifyInv w w := ⟨scanEq_refl w, rfl, rfl⟩

theorem notifyInv_trans {w1 w2 w3 : W} (h1 : NotifyInv w1 w2) (h2 : NotifyInv w2 w3) :
    NotifyInv w1 w3 :=
  ⟨scanEq_trans h1.1 h2.1, h2.2.1.trans h1.2.1, h2.2.2.trans h1.2.2⟩

theorem atomInv_refl (w : W) : AtomInv w w := ⟨scanEq_refl w, rfl, fun _ _ => rfl, le_refl _⟩

theorem atomInv_trans {w1 w2 w3 : W} (h1 : AtomInv w1 w2) (h2 : AtomInv w2 w3) :
    AtomInv w1 w3 :=
  ⟨scanEq_trans h1.1 h2.1, h2.2.1.trans h1.2.1,
    fun a k => (h2.2.2.1 a k).trans (h1.2.2.1 a k), le_trans h1.2.2.2 h2.2.2.2⟩

/-- `observersOf` only reads the atom list. -/
theorem observersOf_atoms {w w' : W} (h : w'.atoms = w.atoms) (a : Nat) (k : Key) :
    observersOf w' a k = observersOf w a k := by
  simp [observersOf, getAtomSt, h]

/-- Appending an atom with an empty registry preserves every registry. -/
theorem observersOf_concat {w w' : W} {o : Nat}
    (h : w'.atoms = w.atoms ++ [{ source := o }]) (a : Nat) (k : Key) :
    observersOf w' a k = observersOf w a k := by
  simp only [observersOf, getAtomSt, h]
  rcases lt_trichotomy a w.atoms.length with hlt | heq | hgt
  · rw [List.get?_append hlt]
  · rw [heq, List.get?_concat_length, List.get?_eq_none.mpr (le_refl _)]
    rfl
  · have h1 : (w.atoms ++ [({ source := o } : AtomSt)]).get? a = none := by
      rw [List.get?_eq_none]
      simp
      omega
    have h2 : w.atoms.get? a = none := List.get?_eq_none.mpr (le_of_lt hgt)
    rw [h1, h2]

theorem runObsList_notifyInv (step : W → Obs → W) (ex : List Obs)
    (hs : ∀ w ob, NotifyInv w (step w ob)) :
    ∀ (l : List Obs) (w : W), NotifyInv w (runObsList step ex l w) := by
  intro l
  induction l with
  | nil => intro w; exact notifyInv_refl w
  | cons ob rest ih =>
    intro w
    rw [runObsList]
    by_cases h : ob ∈ ex
    · rw [if_pos h]; exact ih w
    · rw [if_neg h]; exact notifyInv_trans (hs w ob) (ih _)

theorem runObsStep_notifyInv : ∀ (fuel : Nat) (w : W) (ob : Obs),
    NotifyInv w (runObsStep fuel w ob) := by
  intro fuel
  induction fuel with
  | zero => intro w ob; exact ⟨⟨rfl, rfl, rfl, rfl⟩, rfl, rfl⟩
  | succ fuel ih =>
    intro w ob
    simp only [runObsStep]
    split
    · exact ⟨⟨rfl, rfl, rfl, rfl⟩, rfl, rfl⟩
    · split
      · exact ⟨⟨rfl, rfl, rfl, rfl⟩, rfl, rfl⟩
      · split
        · exact ⟨⟨rfl, rfl, rfl, rfl⟩, rfl, rfl⟩
        · exact ⟨⟨rfl, rfl, rfl, rfl⟩, rfl, by simp [length_listModify]⟩
    · split
      · exact ⟨⟨rfl, rfl, rfl, rfl⟩, rfl, rfl⟩
      · exact notifyInv_trans (⟨⟨rfl, rfl, rfl, rfl⟩, rfl, rfl⟩ : NotifyInv w _)
          (runObsList_notifyInv _ _ ih _ _)
    · split
      · exact ⟨⟨rfl, rfl, rfl, rfl⟩, rfl, rfl⟩
      · exact notifyInv_trans (⟨⟨rfl, rfl, rfl, rfl⟩, rfl, rfl⟩ : NotifyInv w _)
          (runObsList_notifyInv _ _ ih _ _)

theorem notifyAll_notifyInv (fuel : Nat) (w : W) (a : Nat) (k : Key) (ex : List Obs) :
    NotifyInv w (notifyAll fuel w a k ex) :=
  runObsList_notifyInv _ _ (runObsStep_notifyInv fuel) _ _

theorem atomFields_atomInv (recAtom : W → Val → W × Val)
    (hrec : ∀ w v, AtomInv w (recAtom w v).1) :
    ∀ (ks : List Key) (o : Nat) (w : W), AtomInv w (atomFields recAtom o ks w) := by
  intro ks
  induction ks with
  | nil => intro o w; exact atomInv_refl w
  | cons k rest ih =>
    intro o w
    rw [atomFields]
    refine atomInv_trans ?_ (ih o _)
    split
    · exact atomInv_trans (hrec w _) ⟨⟨rfl, rfl, rfl, rfl⟩, rfl, fun _ _ => rfl, le_refl _⟩
    · exact atomInv_refl w

theorem atomCore_atomInv (recAtom : W → Val → W × Val)
    (hrec : ∀ w v, AtomInv w (recAtom w v).1) (w : W) (o : Nat) :
    AtomInv w (atomCore recAtom w o).1 := by
  simp only [atomCore]
  split
  · exact atomInv_refl w
  · split
    · exact atomInv_refl w
    · have h1 : AtomInv w
          { w with
            atoms := w.atoms ++ [{ source := o }],
            memo := w.memo ++ [(o, w.atoms.length)] } :=
        ⟨⟨rfl, rfl, rfl, rfl⟩, rfl, observersOf_concat rfl, by simp⟩
      have h2 := atomFields_atomInv recAtom hrec
        (enumWritableKeys (getObj
          { w with
            atoms := w.atoms ++ [{ source := o }],
            memo := w.memo ++ [(o, w.atoms.length)] } o)) o
        { w with
          atoms := w.atoms ++ [{ source := o }],
          memo := w.memo ++ [(o, w.atoms.length)] }
      refine atomInv_trans (atomInv_trans h1 h2) ?_
      split
      · exact ⟨⟨rfl, rfl, rfl, rfl⟩, rfl, fun _ _ => rfl, le_refl _⟩
      · exact atomInv_refl _

theorem atomFn_atomInv : ∀ (fuel : Nat) (w : W) (v : Val), AtomInv w (atomFn fuel w v).1 := by
  intro fuel
  induction fuel with
  | zero => intro w v; exact ⟨⟨rfl, rfl, rfl, rfl⟩, rfl, fun _ _ => rfl, le_refl _⟩
  | succ fuel ih =>
    intro w v
    simp only [atomFn]
    cases v with
    | ref o => exact atomCore_atomInv _ ih w o
    | undef =>
      exact atomInv_trans (⟨⟨rfl, rfl, rfl, rfl⟩, rfl, fun _ _ => rfl, le_refl _⟩ :
        AtomInv w _) (atomCore_atomInv _ ih _ _)
    | prim n =>
      exact atomInv_trans (⟨⟨rfl, rfl, rfl, rfl⟩, rfl, fun _ _ => rfl, le_refl _⟩ :
        AtomInv w _) (atomCore_atomInv _ ih _ _)
    | wref a =>
      exact atomInv_trans (⟨⟨rfl, rfl, rfl, rfl⟩, rfl, fun _ _ => rfl, le_refl _⟩ :
        AtomInv w _) (atomCore_atomInv _ ih _ _)

theorem atomize_atomInv (fuel : Nat) (w : W) (v : Val) : AtomInv w (atomize fuel w v).1 := by
  cases v with
  | ref o => exact atomFn_atomInv fuel w _
  | undef => exact atomInv_refl w
  | prim n => exact atomInv_refl w
  | wref a => exact atomInv_refl w

theorem setW_setInv (fuel : Nat) (w : W) (a : Nat) (k : Key) (v : Val) :
    SetInv w (setW fuel w a k v).1 := by
  rw [setW]
  split
  · have h1 := atomize_atomInv fuel w v
    have h2 := notifyAll_notifyInv fuel (setRaw (atomize fuel w v).1
      (srcOf (atomize fuel w v).1 a) k (atomize fuel w v).2) a k []
    refine ⟨scanEq_trans h1.1 (scanEq_trans ⟨rfl, rfl, rfl, rfl⟩ h2.1), ?_, ?_, ?_⟩
    · rw [h2.2.2]
      exact h1.2.1 ▸ rfl
    · intro a' k'
      calc observersOf (notifyAll fuel _ a k []) a' k'
          = observersOf (setRaw (atomize fuel w v).1 (srcOf (atomize fuel w v).1 a) k
              (atomize fuel w v).2) a' k' := observersOf_atoms h2.2.1 a' k'
        _ = observersOf (atomize fuel w v).1 a' k' := rfl
        _ = observersOf w a' k' := h1.2.2.1 a' k'
    · calc w.atoms.length ≤ (atomize fuel w v).1.atoms.length := h1.2.2.2
        _ = (notifyAll fuel _ a k []).atoms.length := by rw [h2.2.1]; rfl
  · exact ⟨scanEq_refl w, rfl, fun _ _ => rfl, le_refl _⟩

theorem instInv_refl (w : W) : InstInv w w := ⟨scanEq_refl w, rfl, rfl⟩

theorem instInv_trans {w1 w2 w3 : W} (h1 : InstInv w1 w2) (h2 : InstInv w2 w3) :
    InstInv w1 w3 :=
  ⟨scanEq_trans h1.1 h2.1, h2.2.1.trans h1.2.1, h2.2.2.trans h1.2.2⟩

theorem watchKey_instInv (w : W) (a : Nat) (k : Key) (ob : Obs) :
    InstInv w (watchKey w a k ob) :=
  ⟨⟨rfl, rfl, rfl, rfl⟩, rfl, by simp [watchKey, updAtom, length_listModify]⟩

theorem watchKeys_instInv (a : Nat) (ob : Obs) :
    ∀ (ks : List Key) (w : W), InstInv w (watchKeys a ob ks w) := by
  intro ks
  induction ks with
  | nil => intro w; exact instInv_refl w
  | cons k rest ih =>
    intro w
    rw [watchKeys]
    exact instInv_trans (watchKey_instInv w a k ob) (ih _)

theorem installWatches_instInv (ob : Obs) :
    ∀ (sts : List (Nat × List Key)) (w : W), InstInv w (installWatches ob sts w) := by
  intro sts
  induction sts with
  | nil => intro w; exact instInv_refl w
  | cons p rest ih =>
    intro w
    obtain ⟨a, ks⟩ := p
    rw [installWatches]
    exact instInv_trans (watchKeys_instInv a ob ks w) (ih _)

/-! ## Components preserved by the elementary steps -/

theorem subscribe_scan (w : W) (a : Nat) (k : Key) :
    (subscribe w a k).stack = w.stack ∧ (subscribe w a k).frameCtr = w.frameCtr
      ∧ (subscribe w a k).readLog = w.readLog ∧ (subscribe w a k).atoms = w.atoms
      ∧ (subscribe w a k).observations = w.observations := by
  rw [subscribe]
  split
  · exact ⟨rfl, rfl, rfl, rfl, rfl⟩
  · exact ⟨rfl, rfl, rfl, rfl, rfl⟩

theorem readW_pres (w : W) (a : Nat) (k : Key) :
    (readW w a k).1.stack = w.stack ∧ (readW w a k).1.frameCtr = w.frameCtr
      ∧ (readW w a k).1.atoms = w.atoms ∧ (readW w a k).1.observations = w.observations := by
  rw [readW]
  split
  · exact ⟨(subscribe_scan _ a k).1, (subscribe_scan _ a k).2.1,
      (subscribe_scan _ a k).2.2.2.1, (subscribe_scan _ a k).2.2.2.2⟩
  · exact ⟨rfl, rfl, rfl, rfl⟩

theorem observeFinish_pres (body : Act) (fid : Nat) (w : W) :
    (observeFinish body fid w).stack = removeFirst w.stack fid
    ∧ (observeFinish body fid w).frames = w.frames
    ∧ (observeFinish body fid w).frameCtr = w.frameCtr
    ∧ (observeFinish body fid w).readLog = w.readLog
    ∧ (observeFinish body fid w).atoms.length = w.atoms.length
    ∧ (observeFinish body fid w).observations.length = w.observations.length + 1 := by
  simp only [observeFinish]
  refine ⟨?_, ?_, ?_, ?_, ?_, ?_⟩
  · rw [(installWatches_instInv _ _ _).1.1]; split <;> rfl
  · rw [(installWatches_instInv _ _ _).1.2.1]; split <;> rfl
  · rw [(installWatches_instInv _ _ _).1.2.2.1]; split <;> rfl
  · rw [(installWatches_instInv _ _ _).1.2.2.2]; split <;> rfl
  · rw [(installWatches_instInv _ _ _).2.2]; split <;> rfl
  · rw [(installWatches_instInv _ _ _).2.1]; split <;> simp [spliceFrame]

/-! ## The stack discipline of observer bodies -/

/-- Running an observer body only ever adds (leaked) frames whose ids are
at least the entry frame counter on top of the entry stack; the counter
never decreases. -/
theorem runAct_stack (fuel : Nat) (act : Act) : ∀ (w : W),
    ∃ extra, (runAct fuel act w).1.stack = extra ++ w.stack
      ∧ (∀ i ∈ extra, w.frameCtr ≤ i) ∧ w.frameCtr ≤ (runAct fuel act w).1.frameCtr := by
  induction act with
  | skip => intro w; exact ⟨[], rfl, by simp, le_refl _⟩
  | throwE => intro w; exact ⟨[], rfl, by simp, le_refl _⟩
  | readF v k =>
    intro w
    cases v with
    | wref a =>
      refine ⟨[], ?_, by simp, ?_⟩ <;> simp only [runAct]
      · exact (readW_pres w a k).1
      · exact le_of_eq (readW_pres w a k).2.1.symm
    | ref o => exact ⟨[], rfl, by simp, le_refl _⟩
    | prim n => exact ⟨[], rfl, by simp, le_refl _⟩
    | undef => exact ⟨[], rfl, by simp, le_refl _⟩
  | writeF v k x =>
    intro w
    cases v with
    | wref a =>
      refine ⟨[], ?_, by simp, ?_⟩ <;> simp only [runAct]
      · exact (setW_setInv fuel w a k x).1.1
      · exact le_of_eq (setW_setInv fuel w a k x).1.2.2.1.symm
    | ref o => exact ⟨[], rfl, by simp, le_refl _⟩
    | prim n => exact ⟨[], rfl, by simp, le_refl _⟩
    | undef => exact ⟨[], rfl, by simp, le_refl _⟩
  | seq a b iha ihb =>
    intro w
    simp only [runAct]
    split
    · rename_i w1 heq
      obtain ⟨e1, hs1, he1, hc1⟩ := iha w
      rw [heq] at hs1 hc1
      exact ⟨e1, hs1, he1, hc1⟩
    · rename_i w1 r heq
      obtain ⟨e1, hs1, he1, hc1⟩ := iha w
      rw [heq] at hs1 hc1
      obtain ⟨e2, hs2, he2, hc2⟩ := ihb w1
      refine ⟨e2 ++ e1, ?_, ?_, le_trans hc1 hc2⟩
      · rw [hs2, hs1, List.append_assoc]
      · intro i hi
        rcases List.mem_append.1 hi with h2 | h2
        · exact le_trans hc1 (he2 i h2)
        · exact he1 i h2
  | obsBlock body ihb =>
    intro w
    simp only [runAct]
    split
    · rename_i w2 heq
      obtain ⟨e1, hs1, he1, hc1⟩ := ihb (pushFrame w)
      rw [heq] at hs1 hc1
      refine ⟨e1 ++ [w.frameCtr], ?_, ?_, ?_⟩
      · rw [hs1]
        simp [pushFrame]
      · intro i hi
        rcases List.mem_append.1 hi with h2 | h2
        · exact le_trans (Nat.le_succ _) (he1 i h2)
        · simp at h2
          omega
      · exact le_trans (Nat.le_succ _) hc1
    · rename_i w2 r heq
      obtain ⟨e1, hs1, he1, hc1⟩ := ihb (pushFrame w)
      rw [heq] at hs1 hc1
      have hctr : ∀ i ∈ e1, w.frameCtr + 1 ≤ i := he1
      have hnot : w.frameCtr ∉ e1 := fun hmem => by have := hctr _ hmem; omega
      have hps : (pushFrame w).stack = w.frameCtr :: w.stack := rfl
      refine ⟨e1, ?_, fun i hi => le_trans (Nat.le_succ _) (hctr i hi), ?_⟩
      · rw [(observeFinish_pres body w.frameCtr w2).1, hs1, hps,
          removeFirst_append_not_mem _ _ hnot]
      · rw [(observeFinish_pres body w.frameCtr w2).2.2.1]
        exact le_trans (Nat.le_succ _) hc1
  | unobsBlock body ihb =>
    intro w
    simp only [runAct]
    split
    · rename_i w2 heq
      obtain ⟨e1, hs1, he1, hc1⟩ := ihb (pushFrame w)
      rw [heq] at hs1 hc1
      refine ⟨e1 ++ [w.frameCtr], ?_, ?_, ?_⟩
      · rw [hs1]
        simp [pushFrame]
      · intro i hi
        rcases List.mem_append.1 hi with h2 | h2
        · exact le_trans (Nat.le_succ _) (he1 i h2)
        · simp at h2
          omega
      · exact le_trans (Nat.le_succ _) hc1
    · rename_i w2 r heq
      obtain ⟨e1, hs1, he1, hc1⟩ := ihb (pushFrame w)
      rw [heq] at hs1 hc1
      have hnot : w.frameCtr ∉ e1 := fun hmem => by
        have h2 : w.frameCtr + 1 ≤ w.frameCtr := he1 _ hmem
        omega
      have hps : (pushFrame w).stack = w.frameCtr :: w.stack := rfl
      refine ⟨e1, ?_, ?_, le_trans (Nat.le_succ _) hc1⟩
      · show removeFirst w2.stack w.frameCtr = e1 ++ w.stack
        rw [hs1, hps, removeFirst_append_not_mem _ _ hnot]
      · intro i hi
        have h2 : w.frameCtr + 1 ≤ i := he1 i hi
        omega

theorem alookup_append_single_ne [DecidableEq κ] (l : List (κ × β)) (k k' : κ) (v : β)
    (h : k' ≠ k) : alookup (l ++ [(k, v)]) k' = alookup l k' := by
  rw [alookup_append]
  cases hl : alookup l k'
  · have hkk : ¬ k = k' := fun hx => h hx.symm
    simp [alookup, hkk]
  · rfl

theorem alookup_append_single_none [DecidableEq κ] (l : List (κ × β)) (k : κ) (v : β)
    (h : alookup l k = none) : alookup (l ++ [(k, v)]) k = some v := by
  rw [alookup_append, h]
  simp [alookup]

theorem alookup_append_of_some [DecidableEq κ] (l l2 : List (κ × β)) (k : κ) (v : β)
    (h : alookup l k = some v) : alookup (l ++ l2) k = some v := by
  rw [alookup_append, h]

theorem alookup_append_single_self [DecidableEq κ] (l : List (κ × β)) (k : κ) (v : β) :
    (alookup (l ++ [(k, v)]) k).isSome = true := by
  rw [alookup_append]
  cases hl : alookup l k <;> simp [alookup]

theorem alookup_append_isSome [DecidableEq κ] (l l2 : List (κ × β)) (k : κ)
    (h : (alookup l k).isSome = true) : (alookup (l ++ l2) k).isSome = true := by
  rw [alookup_append]
  cases hl : alookup l k
  · rw [hl] at h; simp at h
  · simp

theorem frameMem_congr {w w' : W} (h : w'.frames = w.frames) (fid a : Nat) (k : Key) :
    frameMem w' fid a k ↔ frameMem w fid a k := by
  unfold frameMem frameStates
  rw [h]

theorem frameMem_push (w : W) (fid a : Nat) (k : Key) :
    frameMem (pushFrame w) fid a k ↔ frameMem w fid a k := by
  unfold frameMem frameStates pushFrame
  simp only []
  cases hl : alookup w.frames fid
  · by_cases hc : fid = w.frameCtr
    · have h2 : alookup (w.frames ++ [(w.frameCtr, ([] : List (Nat × List Key)))]) fid
          = some [] := by
        rw [hc]
        exact alookup_append_single_none _ _ _ (hc ▸ hl)
      rw [h2]
      exact Iff.rfl
    · rw [alookup_append_single_ne _ _ _ _ hc, hl]
  · rw [alookup_append_of_some _ _ _ _ hl]

theorem wfs_push (w : W) (h : WfS w) : WfS (pushFrame w) := by
  intro fid hfid
  rcases List.mem_cons.1 hfid with rfl | hmem
  · exact alookup_append_single_self _ _ _
  · exact alookup_append_isSome _ _ _ (h fid hmem)

theorem wfs_subscribe (w : W) (a : Nat) (k : Key) (h : WfS w) : WfS (subscribe w a k) := by
  rw [subscribe]
  split
  · exact h
  · intro fid hfid
    rw [alookup_isSome_amodify]
    exact h fid hfid

theorem wfs_readW (w : W) (a : Nat) (k : Key) (h : WfS w) : WfS (readW w a k).1 := by
  rw [readW]
  split
  · exact wfs_subscribe _ a k h
  · exact h

theorem wfs_of_scanEq {w w' : W} (hs : ScanEq w w') (h : WfS w) : WfS w' := by
  intro fid hfid
  rw [hs.2.1]
  exact h fid (hs.1 ▸ hfid)

theorem wfs_observeFinish (body : Act) (fid : Nat) (w : W) (h : WfS w) :
    WfS (observeFinish body fid w) := by
  intro f hf
  rw [(observeFinish_pres body fid w).2.1]
  exact h f (mem_removeFirst ((observeFinish_pres body fid w).1 ▸ hf))

/-- Running an observer body preserves the stack/frame coherence. -/
theorem runAct_wfs (fuel : Nat) (act : Act) : ∀ (w : W), WfS w → WfS (runAct fuel act w).1 := by
  induction act with
  | skip => intro w h; exact h
  | throwE => intro w h; exact h
  | readF v k =>
    intro w h
    cases v with
    | wref a => exact wfs_readW w a k h
    | ref o => exact h
    | prim n => exact h
    | undef => exact h
  | writeF v k x =>
    intro w h
    cases v with
    | wref a => exact wfs_of_scanEq (setW_setInv fuel w a k x).1 h
    | ref o => exact h
    | prim n => exact h
    | undef => exact h
  | seq a b iha ihb =>
    intro w h
    simp only [runAct]
    split
    · rename_i w1 heq
      have := iha w h
      rw [heq] at this
      exact this
    · rename_i w1 r heq
      have h1 := iha w h
      rw [heq] at h1
      exact ihb w1 h1
  | obsBlock body ihb =>
    intro w h
    simp only [runAct]
    split
    · rename_i w2 heq
      have := ihb (pushFrame w) (wfs_push w h)
      rw [heq] at this
      exact this
    · rename_i w2 r heq
      have h1 := ihb (pushFrame w) (wfs_push w h)
      rw [heq] at h1
      exact wfs_observeFinish body w.frameCtr w2 h1
  | unobsBlock body ihb =>
    intro w h
    simp only [runAct]
    split
    · rename_i w2 heq
      have := ihb (pushFrame w) (wfs_push w h)
      rw [heq] at this
      exact this
    · rename_i w2 r heq
      have h1 := ihb (pushFrame w) (wfs_push w h)
      rw [heq] at h1
      intro f hf
      exact h1 f (mem_removeFirst hf)

/-- Running an observer body never removes atoms. -/
theorem runAct_atomsLen (fuel : Nat) (act : Act) : ∀ (w : W),
    w.atoms.length ≤ (runAct fuel act w).1.atoms.length := by
  induction act with
  | skip => intro w; exact le_refl _
  | throwE => intro w; exact le_refl _
  | readF v k =>
    intro w
    cases v with
    | wref a => exact le_of_eq (congrArg List.length (readW_pres w a k).2.2.1).symm
    | ref o => exact le_refl _
    | prim n => exact le_refl _
    | undef => exact le_refl _
  | writeF v k x =>
    intro w
    cases v with
    | wref a => exact (setW_setInv fuel w a k x).2.2.2
    | ref o => exact le_refl _
    | prim n => exact le_refl _
    | undef => exact le_refl _
  | seq a b iha ihb =>
    intro w
    simp only [runAct]
    split
    · rename_i w1 heq
      have := iha w
      rw [heq] at this
      exact this
    · rename_i w1 r heq
      have h1 := iha w
      rw [heq] at h1
      exact le_trans h1 (ihb w1)
  | obsBlock body ihb =>
    intro w
    simp only [runAct]
    split
    · rename_i w2 heq
      have := ihb (pushFrame w)
      rw [heq] at this
      exact this
    · rename_i w2 r heq
      have h1 := ihb (pushFrame w)
      rw [heq] at h1
      rw [(observeFinish_pres body w.frameCtr w2).2.2.2.2.1]
      exact h1
  | unobsBlock body ihb =>
    intro w
    simp only [runAct]
    split
    · rename_i w2 heq
      have := ihb (pushFrame w)
      rw [heq] at this
      exact this
    · rename_i w2 r heq
      have h1 := ihb (pushFrame w)
      rw [heq] at h1
      exact h1

/-- Reads inside an observer body are recorded only into frames at or
above the protected tail: the data of every frame id below `c` is
untouched as long as a frame with id at least `c` sits on top of the
stack throughout. -/
theorem runAct_frames_below (fuel : Nat) (act : Act) : ∀ (w : W) (c : Nat)
    (pre tail : List Nat), w.stack = pre ++ tail → pre ≠ [] → (∀ i ∈ pre, c ≤ i) →
    c ≤ w.frameCtr →
    ∀ fid, fid < c → alookup (runAct fuel act w).1.frames fid = alookup w.frames fid := by
  induction act with
  | skip => intro w c pre tail hst hne hpre hc fid hfid; rfl
  | throwE => intro w c pre tail hst hne hpre hc fid hfid; rfl
  | readF v k =>
    intro w c pre tail hst hne hpre hc fid hfid
    cases v with
    | wref a =>
      simp only [runAct]
      rw [readW]
      split
      · simp only [subscribe]
        split
        · rfl
        · rename_i fid0 t heq
          have heq2 : w.stack = fid0 :: t := heq
          have hc0 : c ≤ fid0 := by
            cases pre with
            | nil => exact absurd rfl hne
            | cons p0 ps =>
              have hp : p0 = fid0 := by
                rw [hst] at heq2
                exact (List.cons.injEq _ _ _ _ ▸ heq2.symm).1.symm
              exact hp ▸ hpre p0 (List.mem_cons_self _ _)
          exact alookup_amodify_ne _ _ _ _ (by omega)
      · rfl
    | ref o => rfl
    | prim n => rfl
    | undef => rfl
  | writeF v k x =>
    intro w c pre tail hst hne hpre hc fid hfid
    cases v with
    | wref a =>
      simp only [runAct]
      rw [(setW_setInv fuel w a k x).1.2.1]
    | ref o => rfl
    | prim n => rfl
    | undef => rfl
  | seq a b iha ihb =>
    intro w c pre tail hst hne hpre hc fid hfid
    simp only [runAct]
    split
    · rename_i w1 heq
      have := iha w c pre tail hst hne hpre hc fid hfid
      rw [heq] at this
      exact this
    · rename_i w1 r heq
      have h1 := iha w c pre tail hst hne hpre hc fid hfid
      rw [heq] at h1
      obtain ⟨e1, hs1, he1, hc1⟩ := runAct_stack fuel a w
      rw [heq] at hs1 hc1
      have h2 := ihb w1 c (e1 ++ pre) tail
        (by rw [hs1, hst, List.append_assoc])
        (by simp [hne])
        (by
          intro i hi
          rcases List.mem_append.1 hi with h3 | h3
          · exact le_trans hc (he1 i h3)
          · exact hpre i h3)
        (le_trans hc hc1) fid hfid
      rw [h2, h1]
  | obsBlock body ihb =>
    intro w c pre tail hst hne hpre hc fid hfid
    have hfidc : fid ≠ w.frameCtr := by omega
    have hpush : alookup (pushFrame w).frames fid = alookup w.frames fid :=
      alookup_append_single_ne _ _ _ _ hfidc
    simp only [runAct]
    split
    · rename_i w2 heq
      have := ihb (pushFrame w) c [w.frameCtr] w.stack rfl (by simp)
        (by intro i hi; simp at hi; omega) (le_trans hc (Nat.le_succ _)) fid hfid
      rw [heq] at this
      rw [this, hpush]
    · rename_i w2 r heq
      have h1 := ihb (pushFrame w) c [w.frameCtr] w.stack rfl (by simp)
        (by intro i hi; simp at hi; omega) (le_trans hc (Nat.le_succ _)) fid hfid
      rw [heq] at h1
      rw [(observeFinish_pres body w.frameCtr w2).2.1, h1, hpush]
  | unobsBlock body ihb =>
    intro w c pre tail hst hne hpre hc fid hfid
    have hfidc : fid ≠ w.frameCtr := by omega
    have hpush : alookup (pushFrame w).frames fid = alookup w.frames fid :=
      alookup_append_single_ne _ _ _ _ hfidc
    simp only [runAct]
    split
    · rename_i w2 heq
      have := ihb (pushFrame w) c [w.frameCtr] w.stack rfl (by simp)
        (by intro i hi; simp at hi; omega) (le_trans hc (Nat.le_succ _)) fid hfid
      rw [heq] at this
      rw [this, hpush]
    · rename_i w2 r heq
      have h1 := ihb (pushFrame w) c [w.frameCtr] w.stack rfl (by simp)
        (by intro i hi; simp at hi; omega) (le_trans hc (Nat.le_succ _)) fid hfid
      rw [heq] at h1
      show alookup (spliceFrame w2 w.frameCtr).frames fid = alookup w.frames fid
      rw [show (spliceFrame w2 w.frameCtr).frames = w2.frames from rfl, h1, hpush]

/-! ## Observer-registry membership under watch installation -/

theorem listModify_oob (l : List α) (i : Nat) (f : α → α) (h : l.length ≤ i) :
    listModify l i f = l := by
  induction l generalizing i with
  | nil => rfl
  | cons x rest ih =>
    cases i with
    | zero => simp at h
    | succ n =>
      rw [listModify]
      rw [ih n (by simpa using h)]

theorem mem_addObs (m : List (Key × List Obs)) (k : Key) (ob : Obs) (k' : Key) (ob' : Obs) :
    ob' ∈ (alookup (addObs m k ob) k').getD [] ↔
      ob' ∈ (alookup m k').getD [] ∨ (k' = k ∧ ob' = ob) := by
  unfold addObs
  cases hl : alookup m k with
  | none =>
    by_cases hk : k' = k
    · subst hk
      rw [alookup_append_single_none _ _ _ hl, hl]
      simp
    · rw [alookup_append_single_ne _ _ _ _ hk]
      simp [hk]
  | some l =>
    by_cases hk : k' = k
    · subst hk
      rw [alookup_amodify_self, hl]
      by_cases hmem : ob ∈ l
      · simp only [hmem, if_true, Option.map_some', Option.getD_some]
        constructor
        · exact fun h => Or.inl h
        · rintro (h | ⟨_, rfl⟩)
          · exact h
          · exact hmem
      · simp only [hmem, if_false, Option.map_some', Option.getD_some, List.mem_append,
          List.mem_singleton]
        aesop
    · rw [alookup_amodify_ne _ _ _ _ hk]
      simp [hk]

theorem obsMem_watchKey (w : W) (a : Nat) (k : Key) (ob : Obs) (a' : Nat) (k' : Key)
    (ob' : Obs) :
    ob' ∈ observersOf (watchKey w a k ob) a' k' ↔
      ob' ∈ observersOf w a' k' ∨ (a' = a ∧ a < w.atoms.length ∧ k' = k ∧ ob' = ob) := by
  unfold watchKey updAtom observersOf getAtomSt
  by_cases ha : a < w.atoms.length
  · by_cases ha' : a' = a
    · subst ha'
      rw [get?_listModify_self]
      cases hg : w.atoms.get? a' with
      | none => exact absurd (List.get?_eq_none.1 hg) (by omega)
      | some st =>
        simp only [Option.map_some', Option.getD_some]
        rw [mem_addObs]
        simp [ha]
    · rw [get?_listModify_ne _ _ _ _ ha']
      simp [ha']
  · rw [listModify_oob _ _ _ (by omega)]
    simp [ha]

theorem obsMem_watchKeys (a : Nat) (ob : Obs) : ∀ (ks : List Key) (w : W) (a' : Nat)
    (k' : Key) (ob' : Obs),
    ob' ∈ observersOf (watchKeys a ob ks w) a' k' ↔
      ob' ∈ observersOf w a' k' ∨ (a' = a ∧ a < w.atoms.length ∧ k' ∈ ks ∧ ob' = ob) := by
  intro ks
  induction ks with
  | nil => intro w a' k' ob'; simp [watchKeys]
  | cons k rest ih =>
    intro w a' k' ob'
    rw [watchKeys, ih]
    have hlen : (watchKey w a k ob).atoms.length = w.atoms.length := (watchKey_instInv w a k ob).2.2
    rw [hlen, obsMem_watchKey]
    simp only [List.mem_cons]
    constructor
    · rintro ((h | ⟨h1, h2, h3, h4⟩) | ⟨h1, h2, h3, h4⟩)
      · exact Or.inl h
      · exact Or.inr ⟨h1, h2, Or.inl h3, h4⟩
      · exact Or.inr ⟨h1, h2, Or.inr h3, h4⟩
    · rintro (h | ⟨h1, h2, h3 | h3, h4⟩)
      · exact Or.inl (Or.inl h)
      · exact Or.inl (Or.inr ⟨h1, h2, h3, h4⟩)
      · exact Or.inr ⟨h1, h2, h3, h4⟩

theorem obsMem_installWatches (ob : Obs) : ∀ (sts : List (Nat × List Key)) (w : W)
    (a' : Nat) (k' : Key) (ob' : Obs),
    ob' ∈ observersOf (installWatches ob sts w) a' k' ↔
      ob' ∈ observersOf w a' k'
        ∨ (ob' = ob ∧ ∃ p ∈ sts, p.1 = a' ∧ k' ∈ p.2 ∧ p.1 < w.atoms.length) := by
  intro sts
  induction sts with
  | nil => intro w a' k' ob'; simp [installWatches]
  | cons p rest ih =>
    intro w a' k' ob'
    obtain ⟨a, ks⟩ := p
    rw [installWatches, ih]
    have hlen : (watchKeys a ob ks w).atoms.length = w.atoms.length :=
      (watchKeys_instInv a ob ks w).2.2
    rw [hlen, obsMem_watchKeys]
    simp only [List.mem_cons]
    constructor
    · rintro ((h | ⟨h1, h2, h3, h4⟩) | ⟨h4, q, hq, h1, h3, h2⟩)
      · exact Or.inl h
      · exact Or.inr ⟨h4, (a, ks), Or.inl rfl, h1.symm, h3, h2⟩
      · exact Or.inr ⟨h4, q, Or.inr hq, h1, h3, h2⟩
    · rintro (h | ⟨h4, q, hq | hq, h1, h3, h2⟩)
      · exact Or.inl (Or.inl h)
      · subst hq
        exact Or.inl (Or.inr ⟨h1.symm, h2, h3, h4⟩)
      · exact Or.inr ⟨h4, q, hq, h1, h3, h2⟩

/-! ## Preservation of the update-observer bound -/

theorem wfu_mono {w w' : W} (hobs : ∀ a k, observersOf w' a k = observersOf w a k)
    (hlen : w.observations.length ≤ w'.observations.length) (h : WfU w) : WfU w' := by
  intro a k o hmem
  rw [hobs] at hmem
  exact lt_of_lt_of_le (h a k o hmem) hlen

theorem wfu_observeFinish (body : Act) (fid : Nat) (w : W) (h : WfU w) :
    WfU (observeFinish body fid w) := by
  simp only [observeFinish]
  split <;>
  · intro a k o hmem
    rw [obsMem_installWatches] at hmem
    rw [(installWatches_instInv _ _ _).2.1]
    rcases hmem with hmem | ⟨heq, _⟩
    · have hmem2 : Obs.update o ∈ observersOf w a k := by
        rwa [observersOf_atoms rfl] at hmem
      have h3 := h a k o hmem2
      simp [spliceFrame]
      omega
    · have ho : o = w.observations.length := by
        injection heq
      simp [spliceFrame]
      omega

/-- Running an observer body keeps every registered update observer
pointing at an existing observation record. -/
theorem runAct_wfu (fuel : Nat) (act : Act) : ∀ (w : W), WfU w → WfU (runAct fuel act w).1 := by
  induction act with
  | skip => intro w h; exact h
  | throwE => intro w h; exact h
  | readF v k =>
    intro w h
    cases v with
    | wref a =>
      exact wfu_mono (observersOf_atoms (readW_pres w a k).2.2.1)
        (le_of_eq (congrArg List.length (readW_pres w a k).2.2.2.symm)) h
    | ref o => exact h
    | prim n => exact h
    | undef => exact h
  | writeF v k x =>
    intro w h
    cases v with
    | wref a =>
      exact wfu_mono (setW_setInv fuel w a k x).2.2.1
        (le_of_eq (setW_setInv fuel w a k x).2.1.symm) h
    | ref o => exact h
    | prim n => exact h
    | undef => exact h
  | seq a b iha ihb =>
    intro w h
    simp only [runAct]
    split
    · rename_i w1 heq
      have := iha w h
      rw [heq] at this
      exact this
    · rename_i w1 r heq
      have h1 := iha w h
      rw [heq] at h1
      exact ihb w1 h1
  | obsBlock body ihb =>
    intro w h
    have hpush : WfU (pushFrame w) := wfu_mono (observersOf_atoms rfl) (le_refl _) h
    simp only [runAct]
    split
    · rename_i w2 heq
      have := ihb (pushFrame w) hpush
      rw [heq] at this
      exact this
    · rename_i w2 r heq
      have h1 := ihb (pushFrame w) hpush
      rw [heq] at h1
      exact wfu_observeFinish body w.frameCtr w2 h1
  | unobsBlock body ihb =>
    intro w h
    have hpush : WfU (pushFrame w) := wfu_mono (observersOf_atoms rfl) (le_refl _) h
    simp only [runAct]
    split
    · rename_i w2 heq
      have := ihb (pushFrame w) hpush
      rw [heq] at this
      exact this
    · rename_i w2 r heq
      have h1 := ihb (pushFrame w) hpush
      rw [heq] at h1
      exact wfu_mono (observersOf_atoms rfl) (le_refl _) h1

/-! ## The read log characterizes frame contents -/

/-- Running an observer body appends a block of read events to the ghost
log; each logged atom exists; and a pair belongs to a frame's recorded
set afterwards exactly when it was there before or a read of that pair
was logged while that frame was topmost. -/
theorem runAct_reads (fuel : Nat) (act : Act) : ∀ (w : W), WfS w →
    ∃ delta, (runAct fuel act w).1.readLog = w.readLog ++ delta
      ∧ (∀ e ∈ delta, e.2.1 < (runAct fuel act w).1.atoms.length)
      ∧ ∀ fid a k, frameMem (runAct fuel act w).1 fid a k ↔
          (frameMem w fid a k ∨ (some fid, a, k) ∈ delta) := by
  induction act with
  | skip =>
    intro w hwfs
    exact ⟨[], by simp only [runAct]; simp [setRaw, updObj], by simp,
        fun fid a' k' => ⟨fun h => Or.inl h,
          fun h => h.elim (fun h => h) (fun h2 => absurd h2 (List.not_mem_nil _))⟩⟩
  | throwE =>
    intro w hwfs
    exact ⟨[], by simp only [runAct]; simp [setRaw, updObj], by simp,
        fun fid a' k' => ⟨fun h => Or.inl h,
          fun h => h.elim (fun h => h) (fun h2 => absurd h2 (List.not_mem_nil _))⟩⟩
  | readF v k =>
    intro w hwfs
    cases v with
    | wref a =>
      simp only [runAct]
      rw [readW]
      split
      · rename_i ha
        refine ⟨[(w.stack.head?, a, k)], ?_, ?_, ?_⟩
        · rw [(subscribe_scan _ a k).2.2.1]
        · intro e he
          simp at he
          rw [(subscribe_scan _ a k).2.2.2.1]
          subst he
          exact ha
        · intro fid a' k'
          simp only [subscribe]
          split
          · rename_i heq
            have hst : w.stack = [] := heq
            rw [hst]
            simp only [List.head?_nil, List.mem_singleton]
            rw [frameMem_congr rfl]
            constructor
            · exact Or.inl
            · rintro (h | h)
              · exact h
              · simp at h
          · rename_i fid0 t heq
            have hst : w.stack = fid0 :: t := heq
            rw [hst]
            simp only [List.head?_cons, List.mem_singleton, Prod.mk.injEq,
              Option.some.injEq]
            by_cases hf : fid = fid0
            · subst hf
              have hsome := hwfs fid (hst ▸ List.mem_cons_self _ _)
              obtain ⟨sts, hsts⟩ := Option.isSome_iff_exists.1 hsome
              unfold frameMem frameStates
              simp only []
              rw [alookup_amodify_self, hsts]
              simp only [Option.map_some', Option.getD_some]
              rw [stMem_addStates]
              simp
            · unfold frameMem frameStates
              simp only []
              rw [alookup_amodify_ne _ _ _ _ hf]
              constructor
              · exact Or.inl
              · rintro (h | ⟨h1, _⟩)
                · exact h
                · exact absurd h1 hf
      · exact ⟨[], by simp only [runAct]; simp [setRaw, updObj], by simp,
        fun fid a' k' => ⟨fun h => Or.inl h,
          fun h => h.elim (fun h => h) (fun h2 => absurd h2 (List.not_mem_nil _))⟩⟩
    | ref o => exact ⟨[], by simp only [runAct]; simp [setRaw, updObj], by simp,
        fun fid a' k' => ⟨fun h => Or.inl h,
          fun h => h.elim (fun h => h) (fun h2 => absurd h2 (List.not_mem_nil _))⟩⟩
    | prim n => exact ⟨[], by simp only [runAct]; simp [setRaw, updObj], by simp,
        fun fid a' k' => ⟨fun h => Or.inl h,
          fun h => h.elim (fun h => h) (fun h2 => absurd h2 (List.not_mem_nil _))⟩⟩
    | undef => exact ⟨[], by simp only [runAct]; simp [setRaw, updObj], by simp,
        fun fid a' k' => ⟨fun h => Or.inl h,
          fun h => h.elim (fun h => h) (fun h2 => absurd h2 (List.not_mem_nil _))⟩⟩
  | writeF v k x =>
    intro w hwfs
    cases v with
    | wref a =>
      simp only [runAct]
      refine ⟨[], ?_, by simp, ?_⟩
      · rw [(setW_setInv fuel w a k x).1.2.2.2]
        simp
      · intro fid a' k'
        rw [frameMem_congr (setW_setInv fuel w a k x).1.2.1]
        simp
    | ref o => exact ⟨[], by simp only [runAct]; simp [setRaw, updObj], by simp,
        fun fid a' k' => ⟨fun h => Or.inl h,
          fun h => h.elim (fun h => h) (fun h2 => absurd h2 (List.not_mem_nil _))⟩⟩
    | prim n => exact ⟨[], by simp only [runAct]; simp [setRaw, updObj], by simp,
        fun fid a' k' => ⟨fun h => Or.inl h,
          fun h => h.elim (fun h => h) (fun h2 => absurd h2 (List.not_mem_nil _))⟩⟩
    | undef => exact ⟨[], by simp only [runAct]; simp [setRaw, updObj], by simp,
        fun fid a' k' => ⟨fun h => Or.inl h,
          fun h => h.elim (fun h => h) (fun h2 => absurd h2 (List.not_mem_nil _))⟩⟩
  | seq a b iha ihb =>
    intro w hwfs
    simp only [runAct]
    split
    · rename_i w1 heq
      obtain ⟨d1, hr1, hv1, hm1⟩ := iha w hwfs
      rw [heq] at hr1 hv1 hm1
      exact ⟨d1, hr1, hv1, hm1⟩
    · rename_i w1 r heq
      obtain ⟨d1, hr1, hv1, hm1⟩ := iha w hwfs
      rw [heq] at hr1 hv1 hm1
      have hwfs1 : WfS w1 := by
        have := runAct_wfs fuel a w hwfs
        rwa [heq] at this
      obtain ⟨d2, hr2, hv2, hm2⟩ := ihb w1 hwfs1
      refine ⟨d1 ++ d2, ?_, ?_, ?_⟩
      · rw [hr2, hr1, List.append_assoc]
      · intro e he
        rcases List.mem_append.1 he with h1 | h2
        · exact lt_of_lt_of_le (hv1 e h1) (runAct_atomsLen fuel b w1)
        · exact hv2 e h2
      · intro fid a' k'
        rw [hm2, hm1]
        simp only [List.mem_append]
        tauto
  | obsBlock body ihb =>
    intro w hwfs
    simp only [runAct]
    split
    · rename_i w2 heq
      obtain ⟨d1, hr1, hv1, hm1⟩ := ihb (pushFrame w) (wfs_push w hwfs)
      rw [heq] at hr1 hv1 hm1
      refine ⟨d1, hr1, hv1, ?_⟩
      intro fid a' k'
      rw [hm1, frameMem_push]
    · rename_i w2 r heq
      obtain ⟨d1, hr1, hv1, hm1⟩ := ihb (pushFrame w) (wfs_push w hwfs)
      rw [heq] at hr1 hv1 hm1
      refine ⟨d1, ?_, ?_, ?_⟩
      · rw [(observeFinish_pres body w.frameCtr w2).2.2.2.1, hr1]
        rfl
      · intro e he
        rw [(observeFinish_pres body w.frameCtr w2).2.2.2.2.1]
        exact hv1 e he
      · intro fid a' k'
        rw [frameMem_congr (observeFinish_pres body w.frameCtr w2).2.1, hm1, frameMem_push]
  | unobsBlock body ihb =>
    intro w hwfs
    simp only [runAct]
    split
    · rename_i w2 heq
      obtain ⟨d1, hr1, hv1, hm1⟩ := ihb (pushFrame w) (wfs_push w hwfs)
      rw [heq] at hr1 hv1 hm1
      refine ⟨d1, hr1, hv1, ?_⟩
      intro fid a' k'
      rw [hm1, frameMem_push]
    · rename_i w2 r heq
      obtain ⟨d1, hr1, hv1, hm1⟩ := ihb (pushFrame w) (wfs_push w hwfs)
      rw [heq] at hr1 hv1 hm1
      refine ⟨d1, ?_, ?_, ?_⟩
      · rw [show (spliceFrame w2 w.frameCtr).readLog = w2.readLog from rfl, hr1]
        rfl
      · intro e he
        exact hv1 e he
      · intro fid a' k'
        rw [frameMem_congr (show (spliceFrame w2 w.frameCtr).frames = w2.frames from rfl),
          hm1, frameMem_push]

theorem alookup_none_of_forall [DecidableEq κ] (l : List (κ × β)) (k : κ)
    (h : ∀ p ∈ l, p.1 ≠ k) : alookup l k = none := by
  induction l with
  | nil => rfl
  | cons p rest ih =>
    obtain ⟨k1, v1⟩ := p
    have h1 : k1 ≠ k := h (k1, v1) (List.mem_cons_self _ _)
    simp only [alookup, if_neg h1]
    exact ih (fun q hq => h q (List.mem_cons_of_mem _ hq))

/-- C4: for every callback body, atom reads performed inside
`unobserve(fn)` are never recorded into any frame that existed when the
call began — every pre-existing frame id keeps exactly its recorded data,
even when the call runs nested inside active observations — because the
fresh frame pushed by `unobserve` shields everything below it and is
discarded without being turned into subscriptions; and `unobserve(fn)`
propagates exactly the result (or exception) of running `fn` inside that
fresh frame. -/
theorem C4_unobserve_suppression (fuel : Nat) (body : Act) (w : W) :
    (∀ fid, fid < w.frameCtr →
        alookup (runAct fuel (Act.unobsBlock body) w).1.frames fid = alookup w.frames fid)
    ∧ (runAct fuel (Act.unobsBlock body) w).2 = (runAct fuel body (pushFrame w)).2 := by
  constructor
  · intro fid hfid
    simp only [runAct]
    split
    · rename_i w2 heq
      have h1 := runAct_frames_below fuel body (pushFrame w) w.frameCtr [w.frameCtr] w.stack
        rfl (by simp) (by intro i hi; simp at hi; omega) (Nat.le_succ _) fid hfid
      rw [heq] at h1
      rw [h1]
      exact alookup_append_single_ne _ _ _ _ (by omega)
    · rename_i w2 r heq
      have h1 := runAct_frames_below fuel body (pushFrame w) w.frameCtr [w.frameCtr] w.stack
        rfl (by simp) (by intro i hi; simp at hi; omega) (Nat.le_succ _) fid hfid
      rw [heq] at h1
      show alookup (spliceFrame w2 w.frameCtr).frames fid = alookup w.frames fid
      rw [show (spliceFrame w2 w.frameCtr).frames = w2.frames from rfl, h1]
      exact alookup_append_single_ne _ _ _ _ (by omega)
  · simp only [runAct]
    split
    · rename_i w2 heq
      rw [heq]
    · rename_i w2 r heq
      rw [heq]

/-- C1: minimal subscription.  Concretely, for `atom({a: 1, b: 2})` and
`observe(() => { wrapper.a })`, the installed watch set is exactly
`(atom, a)` carrying the observation's update closure; a write to `a`
invokes that closure (scheduling the re-run), a write to only `b`
invokes nothing.  In general, for every callback body run by
`observe(callback)` from a well-formed world, the update closure of the
finished observation is registered at exactly those `(atom, field)`
pairs whose read was logged while the observation's fresh frame was the
topmost scan frame. -/
theorem C1_minimal_subscription :
    ((getAtomSt abObserve.1 0).observers = [("a", [Obs.update 0])]
      ∧ abWriteA.1.fired.drop abObserve.1.fired.length = [Obs.update 0]
      ∧ (abWriteA.1.observations.get? 0).map Observation.timeoutActive = some true
      ∧ abWriteB.1.fired.drop abWriteA.1.fired.length = [])
    ∧ ∀ (fuel : Nat) (body : Act) (w : W), WfF w → WfS w → WfU w →
        ((runAct fuel (Act.obsBlock body) w).2).isSome = true →
        ∀ a k,
          (Obs.update ((runAct fuel (Act.obsBlock body) w).1.observations.length - 1)
              ∈ observersOf (runAct fuel (Act.obsBlock body) w).1 a k
            ↔ (some w.frameCtr, a, k)
                ∈ (runAct fuel (Act.obsBlock body) w).1.readLog.drop w.readLog.length) := by
  constructor
  · exact ⟨by decide, by decide, by decide, by decide⟩
  · intro fuel body w hF hS hU hsome a k
    rcases hbody : runAct fuel body (pushFrame w) with ⟨w2, r⟩
    cases r with
    | none =>
      have hrun : runAct fuel (Act.obsBlock body) w = (w2, none) := by
        simp only [runAct, hbody]
      rw [hrun] at hsome
      simp at hsome
    | some v =>
      have hrun : runAct fuel (Act.obsBlock body) w
          = (observeFinish body w.frameCtr w2, some Val.undef) := by
        simp only [runAct, hbody]
      rw [hrun]
      obtain ⟨d1, hr1, hv1, hm1⟩ := runAct_reads fuel body (pushFrame w) (wfs_push w hS)
      rw [hbody] at hr1 hv1 hm1
      have hU2 : WfU w2 := by
        have := runAct_wfu fuel body (pushFrame w)
          (wfu_mono (observersOf_atoms rfl) (le_refl _) hU)
        rwa [hbody] at this
      have hr1' : w2.readLog = w.readLog ++ d1 := hr1
      have hdrop : (observeFinish body w.frameCtr w2).readLog.drop w.readLog.length = d1 := by
        rw [(observeFinish_pres body w.frameCtr w2).2.2.2.1, hr1']
        exact List.drop_left _ _
      rw [hdrop]
      -- the fresh frame starts empty, so its final content is exactly the logged reads
      have hnone : alookup w.frames w.frameCtr = none :=
        alookup_none_of_forall _ _ (fun p hp => by have := hF p hp; omega)
      have hbase : ¬ frameMem (pushFrame w) w.frameCtr a k := by
        unfold frameMem frameStates pushFrame
        simp only []
        rw [alookup_append_single_none _ _ _ hnone]
        rintro ⟨p, hp, _⟩
        simp at hp
      have hmem_iff : frameMem w2 w.frameCtr a k ↔ (some w.frameCtr, a, k) ∈ d1 := by
        rw [hm1]
        constructor
        · rintro (h | h)
          · exact absurd h hbase
          · exact h
        · exact Or.inr
      -- the index of the installed update closure is the new observation's id
      have hoid : (observeFinish body w.frameCtr w2).observations.length - 1
          = w2.observations.length := by
        rw [(observeFinish_pres body w.frameCtr w2).2.2.2.2.2]
        omega
      rw [hoid]
      simp only [observeFinish]
      split
      · rw [obsMem_installWatches]
        constructor
        · rintro (h | ⟨_, p, hp, h1, h2, h3⟩)
          · have h4 := hU2 a k _ (by rwa [observersOf_atoms rfl] at h)
            omega
          · exact hmem_iff.1 ⟨p, hp, h1, h2⟩
        · intro h
          obtain ⟨p, hp, h1, h2⟩ := hmem_iff.2 h
          refine Or.inr ⟨rfl, p, hp, h1, h2, ?_⟩
          have h5 := hv1 (some w.frameCtr, a, k) h
          rw [h1]
          exact h5
      · rw [obsMem_installWatches]
        constructor
        · rintro (h | ⟨_, p, hp, h1, h2, h3⟩)
          · have h4 := hU2 a k _ (by rwa [observersOf_atoms rfl] at h)
            omega
          · exact hmem_iff.1 ⟨p, hp, h1, h2⟩
        · intro h
          obtain ⟨p, hp, h1, h2⟩ := hmem_iff.2 h
          refine Or.inr ⟨rfl, p, hp, h1, h2, ?_⟩
          have h5 := hv1 (some w.frameCtr, a, k) h
          rw [h1]
          exact h5

/-- Witness: the general clause of the minimal-subscription theorem at a
concrete instance (an empty world and an empty observer body, where
nothing is installed and nothing is logged). -/
theorem C1_minimal_subscription_witness :
    Obs.update ((runAct 2 (Act.obsBlock Act.skip) ({} : W)).1.observations.length - 1)
        ∈ observersOf (runAct 2 (Act.obsBlock Act.skip) ({} : W)).1 0 "a"
      ↔ (some ({} : W).frameCtr, 0, "a")
          ∈ (runAct 2 (Act.obsBlock Act.skip) ({} : W)).1.readLog.drop
              ({} : W).readLog.length :=
  C1_minimal_subscription.2 2 Act.skip {}
    (fun p hp => absurd hp (List.not_mem_nil _))
    (fun fid hf => absurd hf (List.not_mem_nil _))
    (by
      intro a k o hmem
      have h0 : (({} : W).atoms.get? a) = none := List.get?_eq_none.mpr (Nat.zero_le a)
      simp [observersOf, getAtomSt, h0, alookup] at hmem)
    (by decide) 0 "a"

/-! ## Atomization: memo growth, marker stability, and re-runs -/

theorem getFld_primMap (gs : List (Key × Int)) (k : Key) :
    ∀ fl, getFld (primMap gs) k = some fl → ∃ n, fl.val = Val.prim n := by
  induction gs with
  | nil => intro fl h; exact absurd h (by simp [primMap, getFld])
  | cons p rest ih =>
    intro fl h
    simp only [primMap, List.map_cons, getFld] at h
    split at h
    · cases h
      exact ⟨p.2, rfl⟩
    · exact ih fl h

theorem rawGet_prim_ne_ref (w : W) (gs : List (Key × Int)) (o : Nat)
    (hf : (getObj w o).fields = primMap gs) (k : Key) (o2 : Nat) :
    rawGet w o k ≠ Val.ref o2 := by
  unfold rawGet
  rw [hf]
  cases hg : getFld (primMap gs) k with
  | none => simp
  | some fl =>
    obtain ⟨n, hn⟩ := getFld_primMap gs k fl hg
    simp [hn]

/-- When no field of the object holds a raw-object reference, the
recursive property-atomization loop is the identity: every `atomize` of a
primitive or wrapper passes through and the assignment stores the value
back unchanged. -/
theorem atomFields_no_ref (recAtom : W → Val → W × Val) (o : Nat) :
    ∀ (ks : List Key) (w : W), (∀ k o2, rawGet w o k ≠ Val.ref o2) →
      atomFields recAtom o ks w = w := by
  intro ks
  induction ks with
  | nil => intro w _; rfl
  | cons k rest ih =>
    intro w h
    rw [atomFields]
    split
    · rename_i o2 heq
      exact absurd heq (h k o2)
    · exact ih w h

theorem atomFields_memo (recAtom : W → Val → W × Val)
    (hrec : ∀ w v, ∃ d, (recAtom w v).1.memo = w.memo ++ d) :
    ∀ (ks : List Key) (o : Nat) (w : W),
      ∃ d, (atomFields recAtom o ks w).memo = w.memo ++ d := by
  intro ks
  induction ks with
  | nil => intro o w; exact ⟨[], by simp [atomFields]⟩
  | cons k rest ih =>
    intro o w
    rw [atomFields]
    split
    · rename_i o2 heq
      obtain ⟨d1, hd1⟩ := hrec w (Val.ref o2)
      obtain ⟨d2, hd2⟩ :=
        ih o (setRaw (recAtom w (Val.ref o2)).1 o k (recAtom w (Val.ref o2)).2)
      refine ⟨d1 ++ d2, ?_⟩
      rw [hd2]
      show (recAtom w (Val.ref o2)).1.memo ++ d2 = _
      rw [hd1, List.append_assoc]
    · exact ih o w

theorem atomCore_memo (recAtom : W → Val → W × Val)
    (hrec : ∀ w v, ∃ d, (recAtom w v).1.memo = w.memo ++ d) (w : W) (o : Nat) :
    ∃ d, (atomCore recAtom w o).1.memo = w.memo ++ d := by
  simp only [atomCore]
  split
  · exact ⟨[], by simp⟩
  · split
    · exact ⟨[], by simp⟩
    · obtain ⟨d, hd⟩ := atomFields_memo recAtom hrec
        (enumWritableKeys (getObj
          { w with
            atoms := w.atoms ++ [{ source := o }],
            memo := w.memo ++ [(o, w.atoms.length)] } o)) o
        { w with
          atoms := w.atoms ++ [{ source := o }],
          memo := w.memo ++ [(o, w.atoms.length)] }
      refine ⟨(o, w.atoms.length) :: d, ?_⟩
      split
      · exact hd.trans (by simp)
      · exact hd.trans (by simp)

theorem atomFn_memo : ∀ (fuel : Nat) (w : W) (v : Val),
    ∃ d, (atomFn fuel w v).1.memo = w.memo ++ d := by
  intro fuel
  induction fuel with
  | zero => intro w v; exact ⟨[], by simp [atomFn]⟩
  | succ f ih =>
    intro w v
    cases v with
    | ref o => exact atomCore_memo _ ih w o
    | undef => exact atomCore_memo _ ih _ _
    | prim n => exact atomCore_memo _ ih _ _
    | wref a => exact atomCore_memo _ ih _ _

theorem unatom_updObj (w : W) (oU : Nat) (g : Obj → Obj)
    (hg : ∀ ob, (g ob).unatomized = ob.unatomized) (o : Nat) :
    (getObj (updObj w oU g) o).unatomized = (getObj w o).unatomized := by
  show (((listModify w.heap oU g).get? o).getD default).unatomized
      = ((w.heap.get? o).getD default).unatomized
  by_cases h : o = oU
  · subst h
    rw [get?_listModify_self]
    cases w.heap.get? o with
    | none => rfl
    | some ob => simp [hg]
  · rw [get?_listModify_ne _ _ _ _ h]

theorem unatom_heapAppend (w : W) (ob : Obj) (hob : ob.unatomized = false) (o : Nat)
    (h : (getObj w o).unatomized = false) :
    (getObj { w with heap := w.heap ++ [ob] } o).unatomized = false := by
  show (((w.heap ++ [ob]).get? o).getD default).unatomized = false
  by_cases hlt : o < w.heap.length
  · rw [List.get?_append hlt]
    exact h
  · rw [List.get?_append_right (Nat.le_of_not_lt hlt)]
    cases hg : [ob].get? (o - w.heap.length) with
    | none => rfl
    | some ob2 =>
      have hm : ob2 ∈ [ob] := List.get?_mem hg
      rw [List.mem_singleton] at hm
      show ob2.unatomized = false
      rw [hm]
      exact hob

theorem atomFields_unatom (recAtom : W → Val → W × Val)
    (hrec : ∀ w v o, (getObj w o).unatomized = false →
      (getObj (recAtom w v).1 o).unatomized = false) :
    ∀ (ks : List Key) (oL : Nat) (w : W) (o : Nat),
      (getObj w o).unatomized = false →
      (getObj (atomFields recAtom oL ks w) o).unatomized = false := by
  intro ks
  induction ks with
  | nil => intro oL w o h; exact h
  | cons k rest ih =>
    intro oL w o h
    rw [atomFields]
    split
    · rename_i o2 heq
      have h1 := hrec w (Val.ref o2) o h
      have h2 := unatom_updObj (recAtom w (Val.ref o2)).1 oL
        (fun ob => { ob with fields := setFlds ob.fields k (recAtom w (Val.ref o2)).2 })
        (fun _ => rfl) o
      exact ih oL _ o (h2.trans h1)
    · exact ih oL w o h

theorem atomCore_unatom (recAtom : W → Val → W × Val)
    (hrec : ∀ w v o, (getObj w o).unatomized = false →
      (getObj (recAtom w v).1 o).unatomized = false)
    (w : W) (oC o : Nat) (h : (getObj w o).unatomized = false) :
    (getObj (atomCore recAtom w oC).1 o).unatomized = false := by
  simp only [atomCore]
  split
  · exact h
  · split
    · exact h
    · have h1 : (getObj
          { w with
            atoms := w.atoms ++ [{ source := oC }],
            memo := w.memo ++ [(oC, w.atoms.length)] } o).unatomized = false := h
      have h2 := atomFields_unatom recAtom hrec
        (enumWritableKeys (getObj
          { w with
            atoms := w.atoms ++ [{ source := oC }],
            memo := w.memo ++ [(oC, w.atoms.length)] } oC)) oC
        { w with
          atoms := w.atoms ++ [{ source := oC }],
          memo := w.memo ++ [(oC, w.atoms.length)] } o h1
      split
      · rename_i cbs hcbs
        exact (unatom_updObj _ oC (fun ob => { ob with awaiting := none })
          (fun _ => rfl) o).trans h2
      · exact h2

theorem atomFn_unatom : ∀ (fuel : Nat) (w : W) (v : Val) (o : Nat),
    (getObj w o).unatomized = false →
    (getObj (atomFn fuel w v).1 o).unatomized = false := by
  intro fuel
  induction fuel with
  | zero => intro w v o h; exact h
  | succ f ih =>
    intro w v o h
    cases v with
    | ref o2 => exact atomCore_unatom _ ih w o2 o h
    | undef => exact atomCore_unatom _ ih _ _ o (unatom_heapAppend w _ rfl o h)
    | prim n => exact atomCore_unatom _ ih _ _ o (unatom_heapAppend w _ rfl o h)
    | wref a => exact atomCore_unatom _ ih _ _ o (unatom_heapAppend w _ rfl o h)

/-- The wrapper returned for a fresh or memoized article is recorded in the
memo table under the source's identity. -/
theorem atomCore_lookup (recAtom : W → Val → W × Val)
    (hrec : ∀ w v, ∃ d, (recAtom w v).1.memo = w.memo ++ d)
    (w : W) (o : Nat) (hun : (getObj w o).unatomized = false) :
    ∃ a, (atomCore recAtom w o).2 = Val.wref a
      ∧ alookup (atomCore recAtom w o).1.memo o = some a := by
  simp only [atomCore]
  split
  · rename_i h
    rw [hun] at h
    exact Bool.noConfusion h
  · split
    · rename_i a hma
      exact ⟨a, rfl, hma⟩
    · rename_i hma
      refine ⟨w.atoms.length, rfl, ?_⟩
      obtain ⟨d, hd⟩ := atomFields_memo recAtom hrec
        (enumWritableKeys (getObj
          { w with
            atoms := w.atoms ++ [{ source := o }],
            memo := w.memo ++ [(o, w.atoms.length)] } o)) o
        { w with
          atoms := w.atoms ++ [{ source := o }],
          memo := w.memo ++ [(o, w.atoms.length)] }
      have hkey : ∀ (X : W), X.memo = (w.memo ++ [(o, w.atoms.length)]) ++ d →
          alookup X.memo o = some w.atoms.length := by
        intro X hX
        rw [hX]
        exact alookup_append_of_some _ _ _ _ (alookup_append_single_none _ _ _ hma)
      split
      · exact hkey _ hd
      · exact hkey _ hd

/-- Calling `atom` again on a source that is already memoized (and not
marked unatomized) is an exact no-op returning the memoized wrapper. -/
theorem atomFn_rerun (g : Nat) (w : W) (o a : Nat)
    (hm : alookup w.memo o = some a)
    (hun : (getObj w o).unatomized = false) :
    atomFn (g+1) w (Val.ref o) = (w, Val.wref a) := by
  show atomCore (atomFn g) w o = (w, Val.wref a)
  simp [atomCore, hun, hm]

/-- C2: identity stability, amended.  For every world and every raw
article not carrying the unatom marker, `atom` returns a wrapper index
`a`, records it in the identity memo, and any further `atom` call on the
same source is an exact no-op returning that same wrapper
(`atom(v) === atom(v)`, one atom state per source identity).  The part of
the original claim this replaces: `atom(atom(v))` is NOT a no-op — a
wrapper fails the article test, so it is coerced into a fresh
`{ value }` record and wrapped again. -/
theorem C2_identity_amended (f : Nat) (w : W) (o : Nat)
    (hun : (getObj w o).unatomized = false) :
    ∃ a, (atomFn (f+1) w (Val.ref o)).2 = Val.wref a
      ∧ alookup (atomFn (f+1) w (Val.ref o)).1.memo o = some a
      ∧ ∀ g, atomFn (g+1) (atomFn (f+1) w (Val.ref o)).1 (Val.ref o)
          = ((atomFn (f+1) w (Val.ref o)).1, Val.wref a) := by
  obtain ⟨a, h1, h2⟩ := atomCore_lookup (atomFn f) (atomFn_memo f) w o hun
  refine ⟨a, h1, h2, fun g => ?_⟩
  exact atomFn_rerun g _ o a h2 (atomFn_unatom (f+1) w (Val.ref o) o hun)

/-- Witness: identity stability at the concrete source `{a: 1}`. -/
theorem C2_identity_amended_witness :
    ∃ a, (atomFn (4+1) idW (Val.ref 0)).2 = Val.wref a
      ∧ alookup (atomFn (4+1) idW (Val.ref 0)).1.memo 0 = some a
      ∧ ∀ g, atomFn (g+1) (atomFn (4+1) idW (Val.ref 0)).1 (Val.ref 0)
          = ((atomFn (4+1) idW (Val.ref 0)).1, Val.wref a) :=
  C2_identity_amended 4 idW 0 (by decide)

/-! ## `whenAtom` queueing and flushing -/

theorem whenFold (cs : List Nat) : ∀ (F : List Fld) (acc : List Nat),
    cs.foldl (fun w c => whenAtomFn w 0 c)
        { heap := [{ fields := F, awaiting := some acc }] }
      = { heap := [{ fields := F, awaiting := some (acc ++ cs) }] } := by
  induction cs with
  | nil => intro F acc; simp
  | cons c rest ih =>
    intro F acc
    rw [List.foldl_cons]
    have h1 : whenAtomFn ({ heap := [{ fields := F, awaiting := some acc }] } : W) 0 c
        = { heap := [{ fields := F, awaiting := some (acc ++ [c]) }] } := rfl
    rw [h1, ih, List.append_assoc, List.singleton_append]

theorem whenW_eval (fs : List (Key × Int)) :
    ∀ cbs : List Nat, cbs ≠ [] →
      whenW fs cbs = { heap := [{ fields := primMap fs, awaiting := some cbs }] }
  | [], h => absurd rfl h
  | c :: rest, _ => by
    show List.foldl _ _ _ = _
    rw [List.foldl_cons]
    have h1 : whenAtomFn (primObjW fs) 0 c
        = { heap := [{ fields := primMap fs, awaiting := some [c] }] } := rfl
    rw [h1, whenFold rest (primMap fs) [c], List.singleton_append]

/-- Atomizing an object with primitive fields and a pending `whenAtom`
queue: the queue is removed and every queued callback is invoked exactly
once, in registration order, with the finished wrapper. -/
theorem atomCore_prim_awaiting (recAtom : W → Val → W × Val) (F : List (Key × Int))
    (cbs : List Nat) :
    atomCore recAtom { heap := [{ fields := primMap F, awaiting := some cbs }] } 0
      = ({ heap := [{ fields := primMap F }], atoms := [{ source := 0 }], memo := [(0, 0)],
           callLog := cbs.map (fun c => (c, 0)) }, Val.wref 0) := by
  have hmid := atomFields_no_ref recAtom 0
    (enumWritableKeys (getObj ({ heap := [{ fields := primMap F, awaiting := some cbs }], atoms := [{ source := 0 }], memo := [(0, 0)] } : W) 0))
    { heap := [{ fields := primMap F, awaiting := some cbs }], atoms := [{ source := 0 }], memo := [(0, 0)] }
    (fun k o2 => rawGet_prim_ne_ref { heap := [{ fields := primMap F, awaiting := some cbs }], atoms := [{ source := 0 }], memo := [(0, 0)] } F 0 rfl k o2)
  simp only [atomCore]
  split
  · rename_i h
    exact Bool.noConfusion h
  · split
    · rename_i a h
      exact Option.noConfusion h
    · rw [show ({ ({ heap := [{ fields := primMap F, awaiting := some cbs }] } : W) with atoms := ({ heap := [{ fields := primMap F, awaiting := some cbs }] } : W).atoms ++ [{ source := 0 }], memo := ({ heap := [{ fields := primMap F, awaiting := some cbs }] } : W).memo ++ [(0, ({ heap := [{ fields := primMap F, awaiting := some cbs }] } : W).atoms.length)] } : W) = ({ heap := [{ fields := primMap F, awaiting := some cbs }], atoms := [{ source := 0 }], memo := [(0, 0)] } : W) from rfl]
      rw [hmid]
      rfl

/-- C8: callbacks registered with `whenAtom(target, cb)` before `target`
is first atomized are all invoked exactly once by `atom(target)`, in
registration order, after the wrapper is built; and because the queue is
deleted and the source is memoized, a later `atom` call on the same
target is an exact no-op (same world, same wrapper), so they never fire
again. -/
theorem C8_whenAtom_ordering (f g : Nat) (fs : List (Key × Int)) (cbs : List Nat)
    (hne : cbs ≠ []) :
    (atomFn (f+1) (whenW fs cbs) (Val.ref 0)).1.callLog = cbs.map (fun c => (c, 0))
    ∧ (atomFn (f+1) (whenW fs cbs) (Val.ref 0)).2 = Val.wref 0
    ∧ atomFn (g+1) (atomFn (f+1) (whenW fs cbs) (Val.ref 0)).1 (Val.ref 0)
        = ((atomFn (f+1) (whenW fs cbs) (Val.ref 0)).1, Val.wref 0) := by
  rw [whenW_eval fs cbs hne]
  rw [show atomFn (f+1) ({ heap := [{ fields := primMap fs, awaiting := some cbs }] } : W) (Val.ref 0) = atomCore (atomFn f) { heap := [{ fields := primMap fs, awaiting := some cbs }] } 0 from rfl]
  rw [atomCore_prim_awaiting (atomFn f) fs cbs]
  exact ⟨rfl, rfl, atomFn_rerun g _ 0 0 rfl rfl⟩

/-- Witness: two callbacks registered on `{a: 1}` fire once each, in
order, and a second atomization is a no-op. -/
theorem C8_whenAtom_ordering_witness :
    (atomFn (4+1) (whenW [("a", 1)] [3, 7]) (Val.ref 0)).1.callLog
        = [3, 7].map (fun c => (c, 0))
    ∧ (atomFn (4+1) (whenW [("a", 1)] [3, 7]) (Val.ref 0)).2 = Val.wref 0
    ∧ atomFn (6+1) (atomFn (4+1) (whenW [("a", 1)] [3, 7]) (Val.ref 0)).1 (Val.ref 0)
        = ((atomFn (4+1) (whenW [("a", 1)] [3, 7]) (Val.ref 0)).1, Val.wref 0) :=
  C8_whenAtom_ordering 4 6 [("a", 1)] [3, 7] (by decide)

/-! ## The in-place rewrite of the source object's fields -/

theorem rawGet_eq (w : W) (o : Nat) (k : Key) :
    rawGet w o k = ((getFld (getObj w o).fields k).map Fld.val).getD Val.undef := by
  unfold rawGet
  cases getFld (getObj w o).fields k <;> rfl

theorem getFld_mem : ∀ (l : List Fld) (k : Key) (fl : Fld), getFld l k = some fl → fl ∈ l := by
  intro l
  induction l with
  | nil => intro k fl h; exact absurd h (by simp [getFld])
  | cons hd rest ih =>
    intro k fl h
    rw [getFld] at h
    split at h
    · injection h with h2
      subst h2
      exact List.mem_cons_self _ _
    · exact List.mem_cons_of_mem _ (ih k fl h)

theorem fld_key_unique : ∀ (fs : List Fld), (fs.map Fld.key).Nodup →
    ∀ fl fl2, fl ∈ fs → fl2 ∈ fs → fl.key = fl2.key → fl = fl2 := by
  intro fs
  induction fs with
  | nil => intro _ fl fl2 h; exact absurd h (List.not_mem_nil _)
  | cons hd rest ih =>
    intro hnd fl fl2 h1 h2 hk
    rw [List.map_cons, List.nodup_cons] at hnd
    rcases List.mem_cons.1 h1 with he1 | h1n <;> rcases List.mem_cons.1 h2 with he2 | h2n
    · rw [he1, he2]
    · exfalso
      have hin := List.mem_map_of_mem Fld.key h2n
      rw [← hk, he1] at hin
      exact hnd.1 hin
    · exfalso
      have hin := List.mem_map_of_mem Fld.key h1n
      rw [hk, he2] at hin
      exact hnd.1 hin
    · exact ih hnd.2 fl fl2 h1n h2n hk

theorem getFld_of_mem_nodup : ∀ (fs : List Fld), (fs.map Fld.key).Nodup →
    ∀ fl, fl ∈ fs → getFld fs fl.key = some fl := by
  intro fs
  induction fs with
  | nil => intro _ fl h; exact absurd h (List.not_mem_nil _)
  | cons hd rest ih =>
    intro hnd fl hfl
    rw [List.map_cons, List.nodup_cons] at hnd
    rcases List.mem_cons.1 hfl with rfl | hfl
    · simp [getFld]
    · have hne : hd.key ≠ fl.key := by
        intro he
        have hin := List.mem_map_of_mem Fld.key hfl
        rw [← he] at hin
        exact hnd.1 hin
      simp only [getFld, if_neg hne]
      exact ih hnd.2 fl hfl

theorem mem_enumWritableKeys (fs : List Fld) (hnd : (fs.map Fld.key).Nodup)
    (fl : Fld) (hfl : fl ∈ fs) :
    fl.key ∈ enumWritableKeys { fields := fs } ↔ (fl.enumerable && fl.writable) = true := by
  unfold enumWritableKeys
  constructor
  · intro h
    obtain ⟨fl2, hfl2, hk⟩ := List.mem_map.1 h
    obtain ⟨hmem, hp⟩ := List.mem_filter.1 hfl2
    have he : fl2 = fl := fld_key_unique fs hnd fl2 fl hmem hfl hk
    rw [← he]
    exact hp
  · intro h
    exact List.mem_map_of_mem Fld.key (List.mem_filter.2 ⟨hfl, h⟩)

theorem getFld_setFlds_self : ∀ (l : List Fld) (k : Key) (v : Val) (fl : Fld),
    getFld l k = some fl → fl.writable = true →
    getFld (setFlds l k v) k = some { fl with val := v } := by
  intro l
  induction l with
  | nil => intro k v fl h; exact absurd h (by simp [getFld])
  | cons hd rest ih =>
    intro k v fl h hw
    rw [getFld] at h
    rw [setFlds]
    split at h
    · rename_i hk
      injection h with h2
      subst h2
      rw [if_pos hk, if_pos hw]
      simp [getFld, hk]
    · rename_i hk
      rw [if_neg hk]
      rw [getFld, if_neg hk]
      exact ih k v fl h hw

theorem getFld_setFlds_ne : ∀ (l : List Fld) (k kO : Key) (v : Val), k ≠ kO →
    getFld (setFlds l kO v) k = getFld l k := by
  intro l
  induction l with
  | nil =>
    intro k kO v h
    show getFld [{ key := kO, val := v }] k = getFld [] k
    simp [getFld, Ne.symm h]
  | cons hd rest ih =>
    intro k kO v h
    rw [setFlds]
    by_cases hk : hd.key = kO
    · rw [if_pos hk]
      by_cases hw : hd.writable = true
      · rw [if_pos hw]
        have hne : ¬ hd.key = k := by
          rw [hk]
          exact fun he => h he.symm
        simp [getFld, hne]
      · rw [if_neg hw]
    · rw [if_neg hk]
      simp only [getFld]
      by_cases hdk : hd.key = k
      · rw [if_pos hdk, if_pos hdk]
      · rw [if_neg hdk, if_neg hdk]
        exact ih k kO v h

theorem setFlds_val_pred (P : Val → Prop) : ∀ (l : List Fld) (k : Key) (v : Val),
    (∀ fl ∈ l, P fl.val) → P v → ∀ fl ∈ setFlds l k v, P fl.val := by
  intro l
  induction l with
  | nil =>
    intro k v _ hv fl hfl
    have hfl2 : fl ∈ [({ key := k, val := v } : Fld)] := hfl
    rw [List.mem_singleton] at hfl2
    subst hfl2
    exact hv
  | cons hd rest ih =>
    intro k v hl hv fl hfl
    rw [setFlds] at hfl
    split at hfl
    · split at hfl
      · rcases List.mem_cons.1 hfl with rfl | hfl
        · exact hv
        · exact hl fl (List.mem_cons_of_mem _ hfl)
      · exact hl fl hfl
    · rcases List.mem_cons.1 hfl with rfl | hfl
      · exact hl fl (List.mem_cons_self _ _)
      · exact ih k v (fun q hq => hl q (List.mem_cons_of_mem _ hq)) hv fl hfl

theorem getFld_c10Fold : ∀ (ks : List Key) (fsP : List Fld) (k : Key) (fl : Fld),
    getFld fsP k = some fl →
    (k ∈ ks → fl.val = Val.ref 1 → fl.writable = true) →
    getFld (c10Fold ks fsP) k
      = some (if k ∈ ks ∧ fl.val = Val.ref 1 then { fl with val := Val.wref 1 } else fl) := by
  intro ks
  induction ks with
  | nil =>
    intro fsP k fl h _
    simp [c10Fold, h]
  | cons j ks ih =>
    intro fsP k fl h hw
    rw [show c10Fold (j :: ks) fsP = c10Fold ks (c10Step fsP j) from rfl]
    by_cases hjk : j = k
    · subst hjk
      by_cases hr : fl.val = Val.ref 1
      · have hwr : fl.writable = true := hw (List.mem_cons_self _ _) hr
        have hstep : c10Step fsP j = setFlds fsP j (Val.wref 1) := by
          simp only [c10Step, h]
          rw [if_pos hr]
        rw [hstep]
        have h2 : getFld (setFlds fsP j (Val.wref 1)) j = some { fl with val := Val.wref 1 } :=
          getFld_setFlds_self fsP j (Val.wref 1) fl h hwr
        rw [ih (setFlds fsP j (Val.wref 1)) j { fl with val := Val.wref 1 } h2
          (fun _ hv => absurd hv (by simp))]
        simp [hr]
      · have hstep : c10Step fsP j = fsP := by
          simp only [c10Step, h]
          rw [if_neg hr]
        rw [hstep, ih fsP j fl h (fun _ hv => absurd hv hr)]
        simp [hr]
    · have hpres : getFld (c10Step fsP j) k = getFld fsP k := by
        unfold c10Step
        split
        · split
          · exact getFld_setFlds_ne fsP k j (Val.wref 1) (fun he => hjk he.symm)
          · rfl
        · rfl
      rw [ih (c10Step fsP j) k fl (hpres.trans h)
        (fun hm hv => hw (List.mem_cons_of_mem _ hm) hv)]
      simp [List.mem_cons, Ne.symm hjk]

/-- Atomizing the plain child from within the parent's loop: the child
gets the next atom state and memo entry; its fields are primitive, so its
own loop is the identity. -/
theorem c10_child (f : Nat) (fsP : List Fld) (gs : List (Key × Int)) :
    atomFn (f+1) (c10World fsP gs false) (Val.ref 1)
      = (c10World fsP gs true, Val.wref 1) := by
  show atomCore (atomFn f) (c10World fsP gs false) 1 = _
  have hmid := atomFields_no_ref (atomFn f) 1
    (enumWritableKeys (getObj (c10World fsP gs true) 1)) (c10World fsP gs true)
    (fun k o2 => rawGet_prim_ne_ref (c10World fsP gs true) gs 1 rfl k o2)
  simp only [atomCore]
  split
  · rename_i h
    rw [show (getObj (c10World fsP gs false) 1).unatomized = false from rfl] at h
    exact Bool.noConfusion h
  · split
    · rename_i a h
      rw [show alookup (c10World fsP gs false).memo 1 = (none : Option Nat) from rfl] at h
      exact Option.noConfusion h
    · rw [show ({ c10World fsP gs false with atoms := (c10World fsP gs false).atoms ++ [{ source := 1 }], memo := (c10World fsP gs false).memo ++ [(1, (c10World fsP gs false).atoms.length)] } : W) = c10World fsP gs true from rfl]
      rw [hmid]
      rfl

/-- The parent's property-atomization loop, evaluated: each visited key
holding the raw child reference is overwritten with the child's wrapper
(atomizing the child the first time), every other field is untouched. -/
theorem c10_loop (f : Nat) (gs : List (Key × Int)) :
    ∀ (ks : List Key) (fsP : List Fld) (b : Bool),
      (∀ fl ∈ fsP, C10Val fl.val) →
      atomFields (atomFn (f+1)) 0 ks (c10World fsP gs b)
        = c10World (c10Fold ks fsP) gs (b || c10Hit ks fsP) := by
  intro ks
  induction ks with
  | nil =>
    intro fsP b _
    show c10World fsP gs b = c10World (c10Fold [] fsP) gs (b || c10Hit [] fsP)
    rw [show c10Hit [] fsP = false from rfl, Bool.or_false]
    rfl
  | cons k rest ih =>
    intro fsP b hv
    rw [atomFields]
    have hfields : ∀ b2 : Bool, (getObj (c10World fsP gs b2) 0).fields = fsP := by
      intro b2
      cases b2 <;> rfl
    cases hfl : getFld fsP k with
    | none =>
      have hval : rawGet (c10World fsP gs b) 0 k = Val.undef := by
        rw [rawGet_eq, hfields b, hfl]
        rfl
      rw [hval]
      refine (ih fsP b hv).trans ?_
      simp [c10Fold, c10Hit, c10Step, hfl]
    | some fl =>
      have hval : rawGet (c10World fsP gs b) 0 k = fl.val := by
        rw [rawGet_eq, hfields b, hfl]
        rfl
      rcases hv fl (getFld_mem fsP k fl hfl) with ⟨n, hfv⟩ | hfv | hfv
      · rw [hval, hfv]
        refine (ih fsP b hv).trans ?_
        simp [c10Fold, c10Hit, c10Step, hfl, hfv,
          show (Val.prim n == Val.ref 1) = false from rfl]
      · rw [hval, hfv]
        cases b with
        | false =>
          show atomFields (atomFn (f+1)) 0 rest
            (setRaw (atomFn (f+1) (c10World fsP gs false) (Val.ref 1)).1 0 k
              (atomFn (f+1) (c10World fsP gs false) (Val.ref 1)).2) = _
          rw [c10_child f fsP gs]
          rw [show setRaw (c10World fsP gs true) 0 k (Val.wref 1)
              = c10World (setFlds fsP k (Val.wref 1)) gs true from rfl]
          refine (ih (setFlds fsP k (Val.wref 1)) true
            (setFlds_val_pred C10Val fsP k (Val.wref 1) hv (Or.inr (Or.inr rfl)))).trans ?_
          simp [c10Fold, c10Hit, c10Step, hfl, hfv]
        | true =>
          show atomFields (atomFn (f+1)) 0 rest
            (setRaw (atomFn (f+1) (c10World fsP gs true) (Val.ref 1)).1 0 k
              (atomFn (f+1) (c10World fsP gs true) (Val.ref 1)).2) = _
          rw [show atomFn (f+1) (c10World fsP gs true) (Val.ref 1)
              = (c10World fsP gs true, Val.wref 1) from rfl]
          rw [show setRaw (c10World fsP gs true) 0 k (Val.wref 1)
              = c10World (setFlds fsP k (Val.wref 1)) gs true from rfl]
          refine (ih (setFlds fsP k (Val.wref 1)) true
            (setFlds_val_pred C10Val fsP k (Val.wref 1) hv (Or.inr (Or.inr rfl)))).trans ?_
          simp [c10Fold, c10Hit, c10Step, hfl, hfv]
      · rw [hval, hfv]
        refine (ih fsP b hv).trans ?_
        simp [c10Fold, c10Hit, c10Step, hfl, hfv,
          show (Val.wref 1 == Val.ref 1) = false from rfl]

/-- `atom` on the parent, fully evaluated. -/
theorem c10_eval (f : Nat) (fs : List Fld) (gs : List (Key × Int))
    (hv : ∀ fl ∈ fs, C10Val fl.val) :
    atomFn (f+2) (nestW fs gs) (Val.ref 0)
      = (c10World (c10Fold (enumWritableKeys { fields := fs }) fs) gs
          (c10Hit (enumWritableKeys { fields := fs }) fs), Val.wref 0) := by
  show atomCore (atomFn (f+1)) (nestW fs gs) 0 = _
  simp only [atomCore]
  split
  · rename_i h
    rw [show (getObj (nestW fs gs) 0).unatomized = false from rfl] at h
    exact Bool.noConfusion h
  · split
    · rename_i a h
      rw [show alookup (nestW fs gs).memo 0 = (none : Option Nat) from rfl] at h
      exact Option.noConfusion h
    · rw [show ({ nestW fs gs with atoms := (nestW fs gs).atoms ++ [{ source := 0 }], memo := (nestW fs gs).memo ++ [(0, (nestW fs gs).atoms.length)] } : W) = c10World fs gs false from rfl]
      rw [show getObj (c10World fs gs false) 0 = ({ fields := fs } : Obj) from rfl]
      rw [c10_loop f gs (enumWritableKeys { fields := fs }) fs false hv]
      rw [Bool.false_or]
      cases hB : c10Hit (enumWritableKeys { fields := fs }) fs <;> rfl

/-- C10 (implicit): `atom` mutates its source in place.  For a parent
object whose fields are primitives or references to a plain child object,
atomization returns the parent's wrapper; the atom's raw target is the
original parent object itself; every own enumerable writable field that
held the plain child now holds the child's wrapper on the parent itself
(all other fields are untouched, per `nestTransform`); the child object's
own fields are unchanged; and a write through the wrapper is exactly an
in-place store on the original parent object (no observers exist, so
nothing else happens). -/
theorem C10_atom_mutates_source (f : Nat) (fs : List Fld) (gs : List (Key × Int))
    (hv : ∀ fl ∈ fs, C10Val fl.val) (hnd : (fs.map Fld.key).Nodup) :
    (atomFn (f+2) (nestW fs gs) (Val.ref 0)).2 = Val.wref 0
    ∧ srcOf (atomFn (f+2) (nestW fs gs) (Val.ref 0)).1 0 = 0
    ∧ (∀ fl ∈ fs, rawGet (atomFn (f+2) (nestW fs gs) (Val.ref 0)).1 0 fl.key
        = (nestTransform fl).val)
    ∧ (getObj (atomFn (f+2) (nestW fs gs) (Val.ref 0)).1 1).fields = primMap gs
    ∧ ∀ (h : Nat) (k : Key) (n : Int),
        setW (h+1) (atomFn (f+2) (nestW fs gs) (Val.ref 0)).1 0 k (Val.prim n)
          = (setRaw (atomFn (f+2) (nestW fs gs) (Val.ref 0)).1 0 k (Val.prim n), true) := by
  have hR1 : (atomFn (f+2) (nestW fs gs) (Val.ref 0)).1
      = c10World (c10Fold (enumWritableKeys { fields := fs }) fs) gs
          (c10Hit (enumWritableKeys { fields := fs }) fs) := by
    rw [c10_eval f fs gs hv]
  have hR2 : (atomFn (f+2) (nestW fs gs) (Val.ref 0)).2 = Val.wref 0 := by
    rw [c10_eval f fs gs hv]
  refine ⟨hR2, ?_, ?_, ?_, ?_⟩
  · rw [hR1]
    cases hB : c10Hit (enumWritableKeys { fields := fs }) fs <;> rfl
  · intro fl hfl
    rw [hR1, rawGet_eq]
    have hh : (getObj (c10World (c10Fold (enumWritableKeys { fields := fs }) fs) gs
        (c10Hit (enumWritableKeys { fields := fs }) fs)) 0).fields
        = c10Fold (enumWritableKeys { fields := fs }) fs := by
      cases hB : c10Hit (enumWritableKeys { fields := fs }) fs <;> rfl
    have hks := mem_enumWritableKeys fs hnd fl hfl
    have hwr : fl.key ∈ enumWritableKeys { fields := fs } → fl.val = Val.ref 1 →
        fl.writable = true := by
      intro hin _
      have h1 := hks.1 hin
      rw [Bool.and_eq_true] at h1
      exact h1.2
    rw [hh, getFld_c10Fold (enumWritableKeys { fields := fs }) fs fl.key fl
      (getFld_of_mem_nodup fs hnd fl hfl) hwr]
    by_cases hc : fl.key ∈ enumWritableKeys { fields := fs } ∧ fl.val = Val.ref 1
    · rw [if_pos hc]
      have hcond : (fl.enumerable && fl.writable && (fl.val == Val.ref 1)) = true := by
        simp [hks.1 hc.1, hc.2]
      unfold nestTransform
      rw [if_pos hcond]
      rfl
    · rw [if_neg hc]
      have hcond : (fl.enumerable && fl.writable && (fl.val == Val.ref 1)) = false := by
        rcases Bool.eq_false_or_eq_true (fl.enumerable && fl.writable && (fl.val == Val.ref 1))
          with hc2 | hc2
        · rw [Bool.and_eq_true] at hc2
          have h3 : fl.val = Val.ref 1 := by
            have h4 := hc2.2
            simpa using h4
          exact absurd ⟨hks.2 hc2.1, h3⟩ hc
        · exact hc2
      unfold nestTransform
      rw [if_neg (by rw [hcond]; exact Bool.noConfusion)]
      rfl
  · rw [hR1]
    cases hB : c10Hit (enumWritableKeys { fields := fs }) fs <;> rfl
  · intro h k n
    rw [hR1]
    cases hB : c10Hit (enumWritableKeys { fields := fs }) fs <;> rfl

/-- Witness: a parent `{p: child, q: 7}` over the child `{g: 3}`. -/
theorem C10_atom_mutates_source_witness :
    (atomFn (3+2) (nestW c10fs c10gs) (Val.ref 0)).2 = Val.wref 0
    ∧ srcOf (atomFn (3+2) (nestW c10fs c10gs) (Val.ref 0)).1 0 = 0
    ∧ (∀ fl ∈ c10fs, rawGet (atomFn (3+2) (nestW c10fs c10gs) (Val.ref 0)).1 0 fl.key
        = (nestTransform fl).val)
    ∧ (getObj (atomFn (3+2) (nestW c10fs c10gs) (Val.ref 0)).1 1).fields = primMap c10gs
    ∧ ∀ (h : Nat) (k : Key) (n : Int),
        setW (h+1) (atomFn (3+2) (nestW c10fs c10gs) (Val.ref 0)).1 0 k (Val.prim n)
          = (setRaw (atomFn (3+2) (nestW c10fs c10gs) (Val.ref 0)).1 0 k (Val.prim n), true) :=
  C10_atom_mutates_source 3 c10fs c10gs
    (by
      intro fl hfl
      rcases List.mem_cons.1 hfl with rfl | hfl
      · exact Or.inr (Or.inl rfl)
      rcases List.mem_cons.1 hfl with rfl | hfl
      · exact Or.inl ⟨7, rfl⟩
      · exact absurd hfl (List.not_mem_nil _))
    (by decide)

end Atlas
